import Mathlib

/-!
Verification of the AWX RBAC module (awx/main/models/rbac.py): a shallow
embedding of the role graph with its materialized ancestor closure, the
recursive closure-rebuild algorithm, the thread-local batching protocol,
and the two permission aggregation queries, together with proofs of the
documented properties.

Conventions of the embedding:
- role ids, user ids and content-type ids are natural numbers;
- the database state is a record of finite sets / total functions;
- machine recursion is given a fuel parameter (the source recursion is
  unbounded Python recursion); all definitions are structurally
  recursive so they compute by reduction.
-/

set_option maxRecDepth 4000

/-- A permission grant row (model RolePermission): bound to one role and
one (content_type, object_id) resource, with a flag marking auto-generated
grants and eight integer capability columns, in the declaration order of
the source. -/
structure RolePermission where
  role : Nat
  content_type : Nat
  object_id : Nat
  auto_generated : Bool
  create : Int
  read : Int
  write : Int
  delete : Int
  update : Int
  execute : Int
  scm_update : Int
  use : Int
deriving DecidableEq, Repr

/-- The database state the module manipulates: the set of existing role
ids, the parents and (materialized) ancestors many-to-many relations, the
role membership relation, the generic (content_type, object_id) resource
bound to a role, and the permission rows. -/
structure RBACState where
  roles : Finset Nat
  parents : Nat → Finset Nat
  ancestors : Nat → Finset Nat
  members : Nat → Finset Nat
  resourceRef : Nat → Option (Nat × Nat)
  perms : List RolePermission

/-- One upward step in the role graph: b is a direct parent of a. -/
def stepOf (s : RBACState) (a b : Nat) : Prop := b ∈ s.parents a

/-- The parent relation has no (directed) cycle. -/
def Acyclic (s : RBACState) : Prop := ∀ x, ¬ Relation.TransGen (stepOf s) x x

/-- No role is its own direct parent. -/
def NoSelfLoop (s : RBACState) : Prop := ∀ x, x ∉ s.parents x

/-- Parents of existing roles are existing roles. -/
def Closed (s : RBACState) : Prop := ∀ x ∈ s.roles, s.parents x ⊆ s.roles

/-- The ancestor set rebuild target of the source (lines 117-120):
the role itself together with every ancestor of every direct parent,
reading the parents' currently materialized ancestor sets. -/
def target (s : RBACState) (r : Nat) : Finset Nat :=
  insert r ((s.parents r).biUnion s.ancestors)

/-- Overwrite the stored ancestor set of one role (the add/remove loop of
lines 125-128, whose net effect is exactly replacing the stored set by the
computed one). -/
def setAnc (s : RBACState) (r : Nat) (t : Finset Nat) : RBACState :=
  { s with ancestors := fun x => if x = r then t else s.ancestors x }

/-- List the elements of a finite set of ids in ascending order by
repeatedly extracting the minimum; the fuel is the cardinality. -/
def sortAux : Nat → Finset Nat → List Nat
  | 0, _ => []
  | n + 1, s =>
    match s.min with
    | ⊤ => []
    | (m : Nat) => m :: sortAux n (s.erase m)

/-- The elements of a finite set of ids as a list in ascending order. -/
def sortFinset (s : Finset Nat) : List Nat := sortAux s.card s

/-- The direct children of a role (self.children.all(), line 130), as a
list in ascending id order. -/
def childrenList (s : RBACState) (r : Nat) : List Nat :=
  sortFinset (s.roles.filter (fun c => r ∈ s.parents c))

/-- Run a role-rebuilding action sequentially over a list of role ids,
threading the state; none propagates failure (fuel exhaustion). -/
def goList (f : RBACState → Nat → Option RBACState) :
    RBACState → List Nat → Option RBACState
  | s, [] => some s
  | s, c :: cs =>
    match f s c with
    | none => none
    | some s' => goList f s' cs

/-- The non-batched body of Role.rebuild_role_ancestor_list
(lines 117-131): compute the target from the parents' current ancestor
sets, stop if it equals the stored set, otherwise store it and recurse
into every direct child. The fuel bounds the recursion depth; none means
the recursion did not complete within the given depth. -/
def rebuildFuel : Nat → RBACState → Nat → Option RBACState
  | 0, _, _ => none
  | n + 1, s, r =>
    if target s r = s.ancestors r then some s
    else goList (rebuildFuel n) (setAnc s r (target s r)) (childrenList s r)

/-- The set of roles whose stored ancestor set disagrees with invariant
I1 (stored = target); the roles "needing rebuilding". -/
def Inc (s : RBACState) : Finset Nat :=
  s.roles.filter (fun x => ¬ s.ancestors x = target s x)

/-- The thread-local storage the batching protocol uses: the
batch_role_rebuilding flag and the roles_needing_rebuilding collection. -/
structure Ctx where
  batching : Bool
  pending : Finset Nat
deriving DecidableEq

/-- Role.rebuild_role_ancestor_list (lines 100-131): when a batch is
active in the context, record the role id in the pending collection and
return with the database untouched; otherwise run the recursive rebuild. -/
def rebuild_role_ancestor_list (fuel : Nat) (ctx : Ctx) (s : RBACState) (r : Nat) :
    Option (Ctx × RBACState) :=
  if ctx.batching then some ({ ctx with pending := insert r ctx.pending }, s)
  else
    match rebuildFuel fuel s r with
    | none => none
    | some s' => some (ctx, s')

/-- The batch-exit flush (lines 66-70): refetch every collected role id
that still exists (Role.objects.filter(id__in=...)) and rebuild each, in
ascending id order, inside one transaction. -/
def flushPending (fuel : Nat) (s : RBACState) (pending : Finset Nat) :
    Option RBACState :=
  goList (rebuildFuel fuel) s (sortFinset (pending ∩ s.roles))

/-- batch_role_ancestor_rebuilding (lines 43-71): save the current flag,
set it, reset the collection only when entering the outermost scope, run
the body (its Bool result models normal exit versus an exception
propagating out), then in the finally block restore the flag and, at the
outermost scope only, flush and clear the collection. The allowNesting
argument is accepted and ignored, as in the source. -/
def batch_role_ancestor_rebuilding (fuel : Nat) (allowNesting : Bool)
    (body : Ctx → RBACState → Ctx × RBACState × Bool) (ctx : Ctx) (s : RBACState) :
    Option (Ctx × RBACState × Bool) :=
  let prev := ctx.batching
  let ctx1 : Ctx := ⟨true, if prev then ctx.pending else ∅⟩
  let out := body ctx1 s
  let c2 := out.1
  let s2 := out.2.1
  let ok := out.2.2
  if prev then some ({ c2 with batching := prev }, s2, ok)
  else
    match flushPending fuel s2 c2.pending with
    | none => none
    | some s3 => some (⟨prev, ∅⟩, s3, ok)

/-- A principal for get_user_permissions_on_resource: either a plain user
(type(user) == User) or a non-user accessor identified by its
(content-type, object-id) pair. -/
inductive Principal where
  | user (id : Nat)
  | obj (ctype oid : Nat)
deriving DecidableEq, Repr

/-- The roles a principal holds directly (lines 199-204): a plain user's
members assignments, or the roles whose bound resource equals the
non-user accessor. -/
def heldRoles (s : RBACState) : Principal → Finset Nat
  | .user u => s.roles.filter (fun r => u ∈ s.members r)
  | .obj t i => s.roles.filter (fun r => s.resourceRef r = some (t, i))

/-- The queryset of lines 206-210: grants on the given resource whose
role has some directly-held role of the principal among its ancestors
(role__ancestors__in=roles). -/
def userQs (s : RBACState) (res : Nat × Nat) (p : Principal) : List RolePermission :=
  s.perms.filter (fun g =>
    g.content_type = res.1 ∧ g.object_id = res.2 ∧
      (s.ancestors g.role ∩ heldRoles s p).Nonempty)

/-- The queryset of lines 235-239: grants on the given resource whose
role has the single given role among its ancestors
(role__ancestors=role). -/
def roleQs (s : RBACState) (res : Nat × Nat) (role : Nat) : List RolePermission :=
  s.perms.filter (fun g =>
    g.content_type = res.1 ∧ g.object_id = res.2 ∧ role ∈ s.ancestors g.role)

/-- Django Max aggregation over one integer column: none on an empty row
set, otherwise the maximum value. -/
def omax : List Int → Option Int :=
  List.foldr (fun v acc =>
    match acc with
    | none => some v
    | some w => some (max v w)) none

/-- The aggregate dict of lines 212-221 / 241-250: one Max per capability
column; a field is none exactly when the queryset is empty. -/
structure PermDict where
  create : Option Int
  read : Option Int
  write : Option Int
  update : Option Int
  delete : Option Int
  scm_update : Option Int
  execute : Option Int
  use : Option Int
deriving DecidableEq, Repr

/-- Aggregate per-flag maxima over a list of grants. -/
def aggregatePerms (l : List RolePermission) : PermDict :=
  { create := omax (l.map (·.create))
    read := omax (l.map (·.read))
    write := omax (l.map (·.write))
    update := omax (l.map (·.update))
    delete := omax (l.map (·.delete))
    scm_update := omax (l.map (·.scm_update))
    execute := omax (l.map (·.execute))
    use := omax (l.map (·.use)) }

/-- get_user_permissions_on_resource (lines 184-224): resolve the
principal's roles, aggregate the applicable grants, and return None when
the aggregated read field is absent. -/
def get_user_permissions_on_resource (s : RBACState) (res : Nat × Nat)
    (p : Principal) : Option PermDict :=
  let d := aggregatePerms (userQs s res p)
  if d.read = none then none else some d

/-- get_role_permissions_on_resource (lines 226-253): same aggregation
scoped to the single given role. -/
def get_role_permissions_on_resource (s : RBACState) (res : Nat × Nat)
    (role : Nat) : Option PermDict :=
  let d := aggregatePerms (roleQs s res role)
  if d.read = none then none else some d

/-- The selection described by the spec sentence for permissionsOf: grants
on the resource whose role is an ancestor of (or equal to) one of the
principal's directly-held roles, with isAncestorOf(a, b) meaning
a ∈ ancestors(b) as in the spec and in Role.is_ancestor_of. -/
def specSelectUser (s : RBACState) (res : Nat × Nat) (p : Principal) :
    List RolePermission :=
  s.perms.filter (fun g =>
    g.content_type = res.1 ∧ g.object_id = res.2 ∧
      ∃ h ∈ heldRoles s p, g.role = h ∨ g.role ∈ s.ancestors h)

/-- permissionsOf as the spec sentence reads, aggregating over
specSelectUser with the same absence signaling. -/
def specUserPerms (s : RBACState) (res : Nat × Nat) (p : Principal) :
    Option PermDict :=
  let d := aggregatePerms (specSelectUser s res p)
  if d.read = none then none else some d

/-- The selection described by the spec sentence for permissionsOfRole:
grants on the resource whose role is an ancestor of (or equal to) the
single given role. -/
def specSelectRole (s : RBACState) (res : Nat × Nat) (role : Nat) :
    List RolePermission :=
  s.perms.filter (fun g =>
    g.content_type = res.1 ∧ g.object_id = res.2 ∧
      (g.role = role ∨ g.role ∈ s.ancestors role))

/-- permissionsOfRole as the spec sentence reads. -/
def specRolePerms (s : RBACState) (res : Nat × Nat) (role : Nat) :
    Option PermDict :=
  let d := aggregatePerms (specSelectRole s res role)
  if d.read = none then none else some d

/-- The parts of the state the rebuild never writes: everything except the
materialized ancestors relation. -/
def sameGraph (s' s : RBACState) : Prop :=
  s'.roles = s.roles ∧ s'.parents = s.parents ∧ s'.members = s.members ∧
    s'.resourceRef = s.resourceRef ∧ s'.perms = s.perms

/-- A downward chain in the role graph starting at r: each element is an
existing role having the previous element as a direct parent. This is the
shape of a nested child-propagation call stack of the rebuild. -/
def chainFrom (s : RBACState) : Nat → List Nat → Prop
  | _, [] => True
  | r, c :: l => (c ∈ s.roles ∧ r ∈ s.parents c) ∧ chainFrom s c l

/-- A single edge mutation on the parents relation of one role. -/
inductive EdgeOp where
  | add (role parentId : Nat)
  | remove (role parentId : Nat)
deriving DecidableEq, Repr

/-- The role whose parent set an operation mutates. -/
def EdgeOp.role : EdgeOp → Nat
  | .add r _ => r
  | .remove r _ => r

/-- The parent id an operation adds or removes. -/
def EdgeOp.parentId : EdgeOp → Nat
  | .add _ p => p
  | .remove _ p => p

/-- Whether the operation adds the edge. -/
def EdgeOp.isAdd : EdgeOp → Bool
  | .add _ _ => true
  | .remove _ _ => false

/-- The edge an operation touches. -/
def EdgeOp.edge (o : EdgeOp) : Nat × Nat := (o.role, o.parentId)

/-- Apply an edge mutation to the parents relation (the m2m add/remove the
host system performs before signal handlers invoke the rebuild). -/
def applyEdge (s : RBACState) (o : EdgeOp) : RBACState :=
  match o with
  | .add r p =>
    { s with parents := fun x => if x = r then insert p (s.parents x) else s.parents x }
  | .remove r p =>
    { s with parents := fun x => if x = r then (s.parents x).erase p else s.parents x }

/-- Perform edge mutations sequentially with no batch active: each
mutation is immediately followed by the rebuild of its role. -/
def seqRun (fuel : Nat) : RBACState → List EdgeOp → Option RBACState
  | s, [] => some s
  | s, o :: rest =>
    match rebuildFuel fuel (applyEdge s o) o.role with
    | none => none
    | some s' => seqRun fuel s' rest

/-- Perform edge mutations through the batching entry point
rebuild_role_ancestor_list, threading the context; with a batch active the
none branch is unreachable and returns the inputs unchanged. -/
def batchApply (fuel : Nat) : List EdgeOp → Ctx → RBACState → Ctx × RBACState
  | [], ctx, s => (ctx, s)
  | o :: rest, ctx, s =>
    match rebuild_role_ancestor_list fuel ctx (applyEdge s o) o.role with
    | none => (ctx, s)
    | some (c', s') => batchApply fuel rest c' s'

/-- Last-writer-wins status of one edge under a list of operations on that
edge: true when the edge ends up present. -/
def edgeStatus (l : List EdgeOp) (b : Bool) : Bool :=
  l.foldl (fun _ o => o.isAdd) b

/-- Pointwise comparison of aggregated flag values, absence below
everything. -/
def optLe (a b : Option Int) : Prop :=
  ∀ v, a = some v → ∃ w, b = some w ∧ v ≤ w

/-- Per-flag comparison of permission query results, the absence value
below every record. -/
def dictLe (A B : Option PermDict) : Prop :=
  ∀ dA, A = some dA → ∃ dB, B = some dB ∧
    optLe dA.create dB.create ∧ optLe dA.read dB.read ∧
    optLe dA.write dB.write ∧ optLe dA.update dB.update ∧
    optLe dA.delete dB.delete ∧ optLe dA.scm_update dB.scm_update ∧
    optLe dA.execute dB.execute ∧ optLe dA.use dB.use

/-- Concrete state: role 2 has parent 1, closure is consistent, user 10 is
a member of role 2, and one grant with read = 1 sits on role 1 for
resource (5, 7). -/
def cex : RBACState :=
  { roles := {1, 2}
    parents := fun x => if x = 2 then {1} else ∅
    ancestors := fun x => if x = 2 then {1, 2} else if x = 1 then {1} else ∅
    members := fun r => if r = 2 then {10} else ∅
    resourceRef := fun _ => none
    perms := [⟨1, 5, 7, false, 0, 1, 0, 0, 0, 0, 0, 0⟩] }

/-- Concrete state: a single role 1 with user 20 as member and two grants
on resource (5, 7) with disjoint flags (read = 1 on one, write = 1 on the
other). -/
def cexOr : RBACState :=
  { roles := {1}
    parents := fun _ => ∅
    ancestors := fun x => if x = 1 then {1} else ∅
    members := fun r => if r = 1 then {20} else ∅
    resourceRef := fun _ => none
    perms := [⟨1, 5, 7, false, 0, 1, 0, 0, 0, 0, 0, 0⟩,
              ⟨1, 5, 7, true, 0, 0, 1, 0, 0, 0, 0, 0⟩] }

/-- Concrete state: role 2 has parent 1 but a stale (empty) stored
ancestor set, so its rebuild performs a write. -/
def wC1 : RBACState :=
  { roles := {1, 2}
    parents := fun x => if x = 2 then {1} else ∅
    ancestors := fun x => if x = 1 then {1} else ∅
    members := fun _ => ∅
    resourceRef := fun _ => none
    perms := [] }

/-- Concrete cyclic state: roles 1 and 2 are each other's parent and the
stored ancestor sets already satisfy the fixpoint equation. -/
def cyc : RBACState :=
  { roles := {1, 2}
    parents := fun x => if x = 1 then {2} else if x = 2 then {1} else ∅
    ancestors := fun x => if x = 1 then {1, 2} else if x = 2 then {1, 2} else ∅
    members := fun _ => ∅
    resourceRef := fun _ => none
    perms := [] }

/-- Concrete state: two isolated roles with consistent singleton closures
and one read grant on role 1 for resource (5, 7). -/
def w8 : RBACState :=
  { roles := {1, 2}
    parents := fun _ => ∅
    ancestors := fun x => if x = 1 then {1} else if x = 2 then {2} else ∅
    members := fun _ => ∅
    resourceRef := fun _ => none
    perms := [⟨1, 5, 7, false, 0, 1, 0, 0, 0, 0, 0, 0⟩] }

example :
    (rebuildFuel 1 ⟨∅, fun _ => ∅, fun _ => ∅, fun _ => ∅, fun _ => none, []⟩ 5).isSome
      = true := rfl

example :
    rebuildFuel 2
      ⟨{1, 2}, fun x => if x = 2 then {1} else ∅,
        fun x => if x = 1 then {1} else ∅, fun _ => ∅, fun _ => none, []⟩ 2
      = some (setAnc
          ⟨{1, 2}, fun x => if x = 2 then {1} else ∅,
            fun x => if x = 1 then {1} else ∅, fun _ => ∅, fun _ => none, []⟩ 2
          (target
            ⟨{1, 2}, fun x => if x = 2 then {1} else ∅,
              fun x => if x = 1 then {1} else ∅, fun _ => ∅, fun _ => none, []⟩ 2)) := rfl

/-! ### Basic lemmas -/

lemma sortAux_mem : ∀ (n : Nat) (s : Finset Nat), s.card ≤ n →
    ∀ x, x ∈ sortAux n s ↔ x ∈ s := by
  intro n
  induction n with
  | zero =>
    intro s hs x
    have hempty : s = ∅ := Finset.card_eq_zero.mp (Nat.le_zero.mp hs)
    subst hempty
    simp [sortAux]
  | succ n ih =>
    intro s hs x
    rw [sortAux]
    cases hmin : s.min with
    | top => simp [Finset.min_eq_top.mp hmin]
    | coe m =>
      have hm : m ∈ s := Finset.mem_of_min hmin
      have hcard : (s.erase m).card ≤ n := by
        rw [Finset.card_erase_of_mem hm]
        omega
      simp only [List.mem_cons, ih _ hcard, Finset.mem_erase]
      constructor
      · rintro (rfl | ⟨_, hx⟩)
        · exact hm
        · exact hx
      · intro hx
        by_cases hxm : x = m
        · exact Or.inl hxm
        · exact Or.inr ⟨hxm, hx⟩

lemma sortFinset_mem (s : Finset Nat) (x : Nat) : x ∈ sortFinset s ↔ x ∈ s :=
  sortAux_mem s.card s le_rfl x

lemma mem_childrenList (s : RBACState) (r c : Nat) :
    c ∈ childrenList s r ↔ c ∈ s.roles ∧ r ∈ s.parents c := by
  rw [childrenList, sortFinset_mem, Finset.mem_filter]

lemma sameGraph_refl (s : RBACState) : sameGraph s s := ⟨rfl, rfl, rfl, rfl, rfl⟩

lemma sameGraph_trans {s2 s1 s0 : RBACState} (h2 : sameGraph s2 s1)
    (h1 : sameGraph s1 s0) : sameGraph s2 s0 := by
  obtain ⟨a2, b2, c2, d2, e2⟩ := h2
  obtain ⟨a1, b1, c1, d1, e1⟩ := h1
  exact ⟨a2.trans a1, b2.trans b1, c2.trans c1, d2.trans d1, e2.trans e1⟩

lemma sameGraph_setAnc (s : RBACState) (r : Nat) (t : Finset Nat) :
    sameGraph (setAnc s r t) s := ⟨rfl, rfl, rfl, rfl, rfl⟩

lemma setAnc_ancestors_ne (s : RBACState) {r x : Nat} (t : Finset Nat)
    (h : x ≠ r) : (setAnc s r t).ancestors x = s.ancestors x := by
  simp [setAnc, h]

lemma setAnc_ancestors_self (s : RBACState) (r : Nat) (t : Finset Nat) :
    (setAnc s r t).ancestors r = t := by
  simp [setAnc]

lemma target_congr {s' s : RBACState} (r : Nat) (hp : s'.parents = s.parents)
    (ha : ∀ p ∈ s.parents r, s'.ancestors p = s.ancestors p) :
    target s' r = target s r := by
  rw [target, target, hp]
  exact congrArg (insert r) (Finset.biUnion_congr rfl ha)

lemma rtg_congr {s' s : RBACState} (hp : s'.parents = s.parents) {x y : Nat}
    (h : Relation.ReflTransGen (stepOf s') x y) :
    Relation.ReflTransGen (stepOf s) x y := by
  refine Relation.ReflTransGen.mono ?_ h
  intro a b hab
  simp only [stepOf] at hab ⊢
  rw [← hp]
  exact hab

lemma chainFrom_congr {s' s : RBACState} (hr : s'.roles = s.roles)
    (hp : s'.parents = s.parents) :
    ∀ (l : List Nat) (r : Nat), chainFrom s' r l ↔ chainFrom s r l := by
  intro l
  induction l with
  | nil => intro r; simp [chainFrom]
  | cons c cs ih =>
    intro r
    rw [chainFrom, chainFrom, hr, hp, ih c]

lemma noSelfLoop_of_acyclic {s : RBACState} (h : Acyclic s) : NoSelfLoop s :=
  fun x hx => h x (Relation.TransGen.single hx)

lemma acyclic_of_rank {s : RBACState} (rank : Nat → Nat)
    (h : ∀ a b, stepOf s a b → rank b < rank a) : Acyclic s := by
  intro x hx
  have hlt : ∀ a b, Relation.TransGen (stepOf s) a b → rank b < rank a := by
    intro a b hab
    induction hab with
    | single hs => exact h _ _ hs
    | tail _ hs ih => exact lt_trans (h _ _ hs) ih
  exact absurd (hlt x x hx) (lt_irrefl _)

lemma no_cycle_step {s : RBACState} (hacy : Acyclic s) {x y : Nat}
    (hxy : Relation.ReflTransGen (stepOf s) x y) (hyx : stepOf s y x) : False := by
  rcases (Relation.reflTransGen_iff_eq_or_transGen.mp hxy) with heq | htg
  · subst heq
    exact hacy y (Relation.TransGen.single hyx)
  · exact hacy y (Relation.TransGen.head' hyx htg.to_reflTransGen)

lemma noSelfLoop_congr {s' s : RBACState} (hp : s'.parents = s.parents)
    (h : NoSelfLoop s) : NoSelfLoop s' := by
  intro x
  rw [hp]
  exact h x

lemma closed_congr {s' s : RBACState} (hr : s'.roles = s.roles)
    (hp : s'.parents = s.parents) (h : Closed s) : Closed s' := by
  intro x hx
  rw [hr] at hx
  rw [hr, hp]
  exact h x hx

lemma acyclic_congr {s' s : RBACState} (hp : s'.parents = s.parents)
    (h : Acyclic s) : Acyclic s' := by
  intro x hx
  refine h x ?_
  refine Relation.TransGen.mono ?_ hx
  intro a b hab
  simp only [stepOf] at hab ⊢
  rw [← hp]
  exact hab

/-! ### Effects of the rebuild: preserved structure and write locality -/

lemma rebuild_effects :
    ∀ n : Nat,
      (∀ s r s', rebuildFuel n s r = some s' →
        sameGraph s' s ∧
          ∀ x, s'.ancestors x ≠ s.ancestors x →
            Relation.ReflTransGen (stepOf s) x r ∧ (x = r ∨ x ∈ s.roles)) ∧
      (∀ cs s s', goList (rebuildFuel n) s cs = some s' →
        sameGraph s' s ∧
          ∀ x, s'.ancestors x ≠ s.ancestors x →
            ∃ c ∈ cs, Relation.ReflTransGen (stepOf s) x c ∧ (x = c ∨ x ∈ s.roles)) := by
  intro n
  induction n with
  | zero =>
    constructor
    · intro s r s' h
      simp [rebuildFuel] at h
    · intro cs
      induction cs with
      | nil =>
        intro s s' h
        simp only [goList, Option.some.injEq] at h
        subst h
        exact ⟨sameGraph_refl s, fun x hx => absurd rfl hx⟩
      | cons c cs ihl =>
        intro s s' h
        simp [goList, rebuildFuel] at h
  | succ n ih =>
    have hA : ∀ s r s', rebuildFuel (n + 1) s r = some s' →
        sameGraph s' s ∧
          ∀ x, s'.ancestors x ≠ s.ancestors x →
            Relation.ReflTransGen (stepOf s) x r ∧ (x = r ∨ x ∈ s.roles) := by
      intro s r s' h
      rw [rebuildFuel] at h
      by_cases hstop : target s r = s.ancestors r
      · rw [if_pos hstop] at h
        have hs : s = s' := Option.some.inj h
        subst hs
        exact ⟨sameGraph_refl s, fun x hx => absurd rfl hx⟩
      · rw [if_neg hstop] at h
        obtain ⟨hsg, hch⟩ := ih.2 (childrenList s r) _ _ h
        refine ⟨sameGraph_trans hsg (sameGraph_setAnc s r (target s r)), ?_⟩
        intro x hx
        by_cases hx1 : s'.ancestors x = (setAnc s r (target s r)).ancestors x
        · have hne : (setAnc s r (target s r)).ancestors x ≠ s.ancestors x := by
            rw [← hx1]
            exact hx
          have hxr : x = r := by
            by_contra hner
            exact hne (setAnc_ancestors_ne s (target s r) hner)
          subst hxr
          exact ⟨Relation.ReflTransGen.refl, Or.inl rfl⟩
        · obtain ⟨c, hc, hrtg, hmem⟩ := hch x hx1
          have hcl := (mem_childrenList s r c).mp hc
          constructor
          · have hrtg' : Relation.ReflTransGen (stepOf s) x c := rtg_congr rfl hrtg
            exact hrtg'.tail hcl.2
          · rcases hmem with h1 | h2
            · exact Or.inr (h1 ▸ hcl.1)
            · exact Or.inr h2
    refine ⟨hA, ?_⟩
    intro cs
    induction cs with
    | nil =>
      intro s s' h
      simp only [goList, Option.some.injEq] at h
      subst h
      exact ⟨sameGraph_refl s, fun x hx => absurd rfl hx⟩
    | cons c cs ihl =>
      intro s s' h
      rw [goList] at h
      cases hc : rebuildFuel (n + 1) s c with
      | none =>
        rw [hc] at h
        simp at h
      | some s1 =>
        rw [hc] at h
        obtain ⟨hsg1, hch1⟩ := hA s c s1 hc
        obtain ⟨hsg2, hch2⟩ := ihl s1 s' h
        refine ⟨sameGraph_trans hsg2 hsg1, ?_⟩
        intro x hx
        by_cases hx1 : s'.ancestors x = s1.ancestors x
        · have hne : s1.ancestors x ≠ s.ancestors x := by
            rw [← hx1]
            exact hx
          obtain ⟨hrtg, hor⟩ := hch1 x hne
          exact ⟨c, List.mem_cons_self c cs, hrtg, hor⟩
        · obtain ⟨c', hc', hrtg, hor⟩ := hch2 x hx1
          refine ⟨c', List.mem_cons_of_mem c hc', rtg_congr hsg1.2.1 hrtg, ?_⟩
          rcases hor with h1 | h2
          · exact Or.inl h1
          · exact Or.inr (hsg1.1 ▸ h2)

/-! ### The rebuild only repairs: the inconsistent set shrinks -/

lemma inc_setAnc_target {s : RBACState} {r : Nat} (hns : NoSelfLoop s) :
    Inc (setAnc s r (target s r)) ⊆
      (Inc s \ {r}) ∪ s.roles.filter (fun c => r ∈ s.parents c) := by
  intro x hx
  rw [Inc, Finset.mem_filter] at hx
  have hxroles : x ∈ s.roles := hx.1
  have hxne : ¬ (setAnc s r (target s r)).ancestors x
      = target (setAnc s r (target s r)) x := hx.2
  by_cases hxr : x = r
  · exfalso
    subst hxr
    apply hxne
    rw [setAnc_ancestors_self]
    have htc : target (setAnc s x (target s x)) x = target s x := by
      refine target_congr x rfl ?_
      intro p hp
      refine setAnc_ancestors_ne s _ ?_
      intro hpr
      exact hns x (hpr ▸ hp)
    exact htc.symm
  · by_cases hcx : r ∈ s.parents x
    · exact Finset.mem_union_right _ (Finset.mem_filter.mpr ⟨hxroles, hcx⟩)
    · refine Finset.mem_union_left _ ?_
      rw [Finset.mem_sdiff, Finset.mem_singleton]
      refine ⟨Finset.mem_filter.mpr ⟨hxroles, ?_⟩, hxr⟩
      intro heq
      apply hxne
      rw [setAnc_ancestors_ne s _ hxr, heq]
      have htc : target (setAnc s r (target s r)) x = target s x := by
        refine target_congr x rfl ?_
        intro p hp
        refine setAnc_ancestors_ne s _ ?_
        intro hpr
        exact hcx (hpr ▸ hp)
      exact htc.symm

lemma rebuild_inc :
    ∀ n : Nat,
      (∀ s r s', rebuildFuel n s r = some s' → NoSelfLoop s →
        Inc s' ⊆ Inc s \ {r}) ∧
      (∀ cs s s', goList (rebuildFuel n) s cs = some s' → NoSelfLoop s →
        Inc s' ⊆ Inc s \ cs.toFinset) := by
  intro n
  induction n with
  | zero =>
    constructor
    · intro s r s' h
      simp [rebuildFuel] at h
    · intro cs
      induction cs with
      | nil =>
        intro s s' h hns
        simp only [goList, Option.some.injEq] at h
        subst h
        simp
      | cons c cs ihl =>
        intro s s' h hns
        simp [goList, rebuildFuel] at h
  | succ n ih =>
    have hA : ∀ s r s', rebuildFuel (n + 1) s r = some s' → NoSelfLoop s →
        Inc s' ⊆ Inc s \ {r} := by
      intro s r s' h hns
      rw [rebuildFuel] at h
      by_cases hstop : target s r = s.ancestors r
      · rw [if_pos hstop] at h
        have hs := Option.some.inj h
        subst hs
        intro x hx
        rw [Finset.mem_sdiff, Finset.mem_singleton]
        refine ⟨hx, ?_⟩
        intro hxr
        subst hxr
        rw [Inc, Finset.mem_filter] at hx
        exact hx.2 hstop.symm
      · rw [if_neg hstop] at h
        have hns1 : NoSelfLoop (setAnc s r (target s r)) := noSelfLoop_congr rfl hns
        have hsub1 := ih.2 (childrenList s r) _ _ h hns1
        intro x hx
        have hx1 := hsub1 hx
        rw [Finset.mem_sdiff] at hx1
        have hx2 := inc_setAnc_target hns hx1.1
        rw [Finset.mem_union] at hx2
        rcases hx2 with hl | hr2
        · exact hl
        · exfalso
          apply hx1.2
          rw [List.mem_toFinset, mem_childrenList]
          exact Finset.mem_filter.mp hr2
    refine ⟨hA, ?_⟩
    intro cs
    induction cs with
    | nil =>
      intro s s' h hns
      simp only [goList, Option.some.injEq] at h
      subst h
      simp
    | cons c cs ihl =>
      intro s s' h hns
      rw [goList] at h
      cases hc : rebuildFuel (n + 1) s c with
      | none =>
        rw [hc] at h
        simp at h
      | some s1 =>
        rw [hc] at h
        have h1 := hA s c s1 hc hns
        have hns1 : NoSelfLoop s1 :=
          noSelfLoop_congr ((rebuild_effects (n + 1)).1 s c s1 hc).1.2.1 hns
        have h2 := ihl s1 s' h hns1
        intro x hx
        have hx2 := h2 hx
        rw [Finset.mem_sdiff] at hx2
        have hx1 := h1 hx2.1
        rw [Finset.mem_sdiff, Finset.mem_singleton] at hx1
        rw [Finset.mem_sdiff]
        refine ⟨hx1.1, ?_⟩
        rw [List.toFinset_cons, Finset.mem_insert]
        rintro (h3 | h4)
        · exact hx1.2 h3
        · exact hx2.2 h4

/-! ### Termination on acyclic graphs -/

lemma chainFrom_elem {s : RBACState} :
    ∀ (l : List Nat) (r : Nat), chainFrom s r l →
      ∀ x ∈ l, Relation.TransGen (stepOf s) x r := by
  intro l
  induction l with
  | nil =>
    intro r h x hx
    simp at hx
  | cons c cs ih =>
    intro r h x hx
    rw [chainFrom] at h
    obtain ⟨⟨hcr, hpar⟩, hchain⟩ := h
    rcases List.mem_cons.mp hx with rfl | hxcs
    · exact Relation.TransGen.single hpar
    · exact (ih c hchain x hxcs).tail hpar

lemma chainFrom_roles {s : RBACState} :
    ∀ (l : List Nat) (r : Nat), chainFrom s r l → ∀ x ∈ l, x ∈ s.roles := by
  intro l
  induction l with
  | nil =>
    intro r h x hx
    simp at hx
  | cons c cs ih =>
    intro r h x hx
    rw [chainFrom] at h
    obtain ⟨⟨hcr, hpar⟩, hchain⟩ := h
    rcases List.mem_cons.mp hx with rfl | hxcs
    · exact hcr
    · exact ih c hchain x hxcs

lemma chainFrom_nodup {s : RBACState} (hacy : Acyclic s) :
    ∀ (l : List Nat) (r : Nat), chainFrom s r l → r ∉ l ∧ l.Nodup := by
  intro l
  induction l with
  | nil =>
    intro r h
    simp
  | cons c cs ih =>
    intro r h
    rw [chainFrom] at h
    obtain ⟨⟨hcr, hpar⟩, hchain⟩ := h
    obtain ⟨hcnotin, hnodup⟩ := ih c hchain
    constructor
    · intro hrmem
      rcases List.mem_cons.mp hrmem with rfl | hrcs
      · exact hacy r (Relation.TransGen.single hpar)
      · exact hacy r ((chainFrom_elem cs c hchain r hrcs).tail hpar)
    · exact List.nodup_cons.mpr ⟨hcnotin, hnodup⟩

lemma chainFrom_length {s : RBACState} (hacy : Acyclic s) :
    ∀ (l : List Nat) (r : Nat), chainFrom s r l → l.length ≤ s.roles.card := by
  intro l r h
  obtain ⟨-, hnodup⟩ := chainFrom_nodup hacy l r h
  have hsub : l.toFinset ⊆ s.roles := fun x hx =>
    chainFrom_roles l r h x (List.mem_toFinset.mp hx)
  calc l.length = l.toFinset.card := (List.toFinset_card_of_nodup hnodup).symm
    _ ≤ s.roles.card := Finset.card_le_card hsub

lemma rebuild_term :
    ∀ n : Nat,
      (∀ s r, (∀ l, chainFrom s r l → l.length < n) →
        (rebuildFuel n s r).isSome = true) ∧
      (∀ cs s, (∀ c ∈ cs, ∀ l, chainFrom s c l → l.length < n) →
        (goList (rebuildFuel n) s cs).isSome = true) := by
  intro n
  induction n with
  | zero =>
    constructor
    · intro s r h
      exact absurd (h [] trivial) (by omega)
    · intro cs
      induction cs with
      | nil =>
        intro s h
        rfl
      | cons c cs ihl =>
        intro s h
        exact absurd (h c (List.mem_cons_self c cs) [] trivial) (by omega)
  | succ n ih =>
    have hA : ∀ s r, (∀ l, chainFrom s r l → l.length < n + 1) →
        (rebuildFuel (n + 1) s r).isSome = true := by
      intro s r h
      rw [rebuildFuel]
      by_cases hstop : target s r = s.ancestors r
      · rw [if_pos hstop]
        rfl
      · rw [if_neg hstop]
        refine ih.2 (childrenList s r) (setAnc s r (target s r)) ?_
        intro c hc l hl
        have hcl := (mem_childrenList s r c).mp hc
        have hl' : chainFrom s c l :=
          (@chainFrom_congr (setAnc s r (target s r)) s rfl rfl l c).mp hl
        have hchain : chainFrom s r (c :: l) := ⟨⟨hcl.1, hcl.2⟩, hl'⟩
        have := h (c :: l) hchain
        simp only [List.length_cons] at this
        omega
    refine ⟨hA, ?_⟩
    intro cs
    induction cs with
    | nil =>
      intro s h
      rfl
    | cons c cs ihl =>
      intro s h
      rw [goList]
      cases hc : rebuildFuel (n + 1) s c with
      | none =>
        exfalso
        have := hA s c (fun l hl => h c (List.mem_cons_self c cs) l hl)
        rw [hc] at this
        simp at this
      | some s1 =>
        have hsg := ((rebuild_effects (n + 1)).1 s c s1 hc).1
        refine ihl s1 ?_
        intro c' hc' l hl
        exact h c' (List.mem_cons_of_mem c hc') l
          ((chainFrom_congr hsg.1 hsg.2.1 l c').mp hl)

lemma rebuild_total {s : RBACState} (hacy : Acyclic s) (r : Nat) :
    (rebuildFuel (s.roles.card + 1) s r).isSome = true := by
  refine (rebuild_term (s.roles.card + 1)).1 s r ?_
  intro l hl
  have := chainFrom_length hacy l r hl
  omega

/-! ### After a completed rebuild the rebuilt role satisfies I1 -/

lemma rebuild_fixes {s : RBACState} {r : Nat} {n : Nat} {s' : RBACState}
    (hacy : Acyclic s) (h : rebuildFuel n s r = some s') :
    s'.ancestors r = target s' r := by
  cases n with
  | zero => simp [rebuildFuel] at h
  | succ n =>
    rw [rebuildFuel] at h
    by_cases hstop : target s r = s.ancestors r
    · rw [if_pos hstop] at h
      have hs := Option.some.inj h
      subst hs
      exact hstop.symm
    · rw [if_neg hstop] at h
      obtain ⟨hsg, hch⟩ := (rebuild_effects n).2 (childrenList s r) _ _ h
      have hr : s'.ancestors r = (setAnc s r (target s r)).ancestors r := by
        by_contra hne
        obtain ⟨c, hc, hrtg, -⟩ := hch r hne
        have hcl := (mem_childrenList s r c).mp hc
        exact no_cycle_step hacy (rtg_congr rfl hrtg) hcl.2
      have hpar : ∀ p ∈ s.parents r, s'.ancestors p = s.ancestors p := by
        intro p hp
        have hpr : p ≠ r := by
          intro hpr
          exact noSelfLoop_of_acyclic hacy r (hpr ▸ hp)
        have h1 : (setAnc s r (target s r)).ancestors p = s.ancestors p :=
          setAnc_ancestors_ne s _ hpr
        by_contra hne
        have hne1 : s'.ancestors p ≠ (setAnc s r (target s r)).ancestors p := by
          rw [h1]
          exact hne
        obtain ⟨c, hc, hrtg, -⟩ := hch p hne1
        have hcl := (mem_childrenList s r c).mp hc
        have hrtg2 : Relation.ReflTransGen (stepOf s) p r :=
          (rtg_congr rfl hrtg).tail hcl.2
        exact no_cycle_step hacy hrtg2 hp
      rw [hr, setAnc_ancestors_self]
      exact (@target_congr s' s r hsg.2.1 hpar).symm

/-! ### Uniqueness and monotonicity of consistent closures on acyclic graphs -/

lemma wf_par (roles : Finset Nat) (par : Nat → Finset Nat)
    (hacy : ∀ x, ¬ Relation.TransGen (fun a b => b ∈ par a) x x) :
    WellFounded (fun (a b : {z // z ∈ roles}) => a.1 ∈ par b.1) := by
  have hlift : ∀ (a b : {z // z ∈ roles}),
      Relation.TransGen (fun (x y : {z // z ∈ roles}) => x.1 ∈ par y.1) a b →
      Relation.TransGen (fun x y => y ∈ par x) b.1 a.1 := by
    intro a b h
    induction h with
    | single hs => exact Relation.TransGen.single hs
    | tail _ hs ih => exact Relation.TransGen.head hs ih
  haveI : IsTrans {z // z ∈ roles}
      (Relation.TransGen fun (a b : {z // z ∈ roles}) => a.1 ∈ par b.1) :=
    ⟨fun a b c hab hbc => hab.trans hbc⟩
  haveI : IsIrrefl {z // z ∈ roles}
      (Relation.TransGen fun (a b : {z // z ∈ roles}) => a.1 ∈ par b.1) :=
    ⟨fun a ha => hacy a.1 (hlift a a ha)⟩
  exact Subrelation.wf (fun h => Relation.TransGen.single h)
    (Finite.wellFounded_of_trans_of_irrefl
      (Relation.TransGen fun (a b : {z // z ∈ roles}) => a.1 ∈ par b.1))

lemma fix_unique (roles : Finset Nat) (par : Nat → Finset Nat)
    (hclosed : ∀ x ∈ roles, par x ⊆ roles)
    (hacy : ∀ x, ¬ Relation.TransGen (fun a b => b ∈ par a) x x)
    (a b : Nat → Finset Nat)
    (ha : ∀ x ∈ roles, a x = insert x ((par x).biUnion a))
    (hb : ∀ x ∈ roles, b x = insert x ((par x).biUnion b)) :
    ∀ x ∈ roles, a x = b x := by
  have hwf := wf_par roles par hacy
  suffices h : ∀ y : {z // z ∈ roles}, a y.1 = b y.1 by
    intro x hx
    exact h ⟨x, hx⟩
  intro y
  refine hwf.induction (C := fun y => a y.1 = b y.1) y ?_
  intro z ih
  rw [ha z.1 z.2, hb z.1 z.2]
  congr 1
  refine Finset.biUnion_congr rfl ?_
  intro p hp
  exact ih ⟨p, hclosed z.1 z.2 hp⟩ hp

lemma fix_mono (roles : Finset Nat) (par1 par2 : Nat → Finset Nat)
    (hsub : ∀ x ∈ roles, par1 x ⊆ par2 x)
    (hclosed : ∀ x ∈ roles, par2 x ⊆ roles)
    (hacy : ∀ x, ¬ Relation.TransGen (fun a b => b ∈ par2 a) x x)
    (a b : Nat → Finset Nat)
    (ha : ∀ x ∈ roles, a x = insert x ((par1 x).biUnion a))
    (hb : ∀ x ∈ roles, b x = insert x ((par2 x).biUnion b)) :
    ∀ x ∈ roles, a x ⊆ b x := by
  have hwf := wf_par roles par2 hacy
  suffices h : ∀ y : {z // z ∈ roles}, a y.1 ⊆ b y.1 by
    intro x hx
    exact h ⟨x, hx⟩
  intro y
  refine hwf.induction (C := fun y => a y.1 ⊆ b y.1) y ?_
  intro z ih
  rw [ha z.1 z.2, hb z.1 z.2]
  intro v hv
  rw [Finset.mem_insert] at hv ⊢
  rcases hv with rfl | hv
  · exact Or.inl rfl
  · right
    rw [Finset.mem_biUnion] at hv ⊢
    obtain ⟨p, hp, hvp⟩ := hv
    have hp2 : p ∈ par2 z.1 := hsub z.1 z.2 hp
    exact ⟨p, hp2, ih ⟨p, hclosed z.1 z.2 hp2⟩ hp2 hvp⟩

lemma inc_empty_iff {s : RBACState} :
    Inc s = ∅ ↔ ∀ x ∈ s.roles, s.ancestors x = target s x := by
  rw [Inc, Finset.filter_eq_empty_iff]
  constructor
  · intro h x hx
    by_contra hne
    exact h hx hne
  · intro h x hx hne
    exact hne (h x hx)

lemma acyclic_iff_fun {s : RBACState} :
    Acyclic s ↔ ∀ x, ¬ Relation.TransGen (fun a b => b ∈ s.parents a) x x := by
  constructor
  · intro h x hx
    refine h x ?_
    exact Relation.TransGen.mono (fun a b hab => hab) hx
  · intro h x hx
    refine h x ?_
    exact Relation.TransGen.mono (fun a b hab => hab) hx

/-! ### Aggregation lemmas -/

lemma omax_cons (v : Int) (l : List Int) :
    omax (v :: l) = match omax l with
      | none => some v
      | some w => some (max v w) := rfl

lemma omax_eq_none_iff (l : List Int) : omax l = none ↔ l = [] := by
  cases l with
  | nil => simp [omax]
  | cons v l =>
    rw [omax_cons]
    cases homax : omax l
    · simp
    · simp

lemma omax_mem {l : List Int} {v : Int} (h : omax l = some v) : v ∈ l := by
  induction l with
  | nil => simp [omax] at h
  | cons w l ih =>
    rw [omax_cons] at h
    cases homax : omax l with
    | none =>
      rw [homax] at h
      have hv := Option.some.inj h
      subst hv
      exact List.mem_cons_self w l
    | some u =>
      rw [homax] at h
      have hv := Option.some.inj h
      rcases max_choice w u with hmax | hmax
      · rw [hmax] at hv
        subst hv
        exact List.mem_cons_self w l
      · rw [hmax] at hv
        subst hv
        exact List.mem_cons_of_mem w (ih homax)

lemma le_omax_of_mem {l : List Int} {v : Int} (h : v ∈ l) :
    ∃ w, omax l = some w ∧ v ≤ w := by
  induction l with
  | nil => simp at h
  | cons u l ih =>
    rcases List.mem_cons.mp h with rfl | hmem
    · cases homax : omax l with
      | none => exact ⟨v, by rw [omax_cons, homax], le_refl v⟩
      | some w => exact ⟨max v w, by rw [omax_cons, homax], le_max_left v w⟩
    · obtain ⟨w, hw, hvw⟩ := ih hmem
      refine ⟨max u w, ?_, hvw.trans (le_max_right u w)⟩
      rw [omax_cons, hw]

lemma omax_le_mono {l1 l2 : List Int} (h : ∀ v ∈ l1, v ∈ l2) :
    optLe (omax l1) (omax l2) := by
  intro v hv
  exact le_omax_of_mem (h v (omax_mem hv))

lemma map_mem_mono {α β : Type} {l1 l2 : List α} (f : α → β)
    (h : ∀ g ∈ l1, g ∈ l2) : ∀ v ∈ l1.map f, v ∈ l2.map f := by
  intro v hv
  rw [List.mem_map] at hv ⊢
  obtain ⟨g, hg, hfg⟩ := hv
  exact ⟨g, h g hg, hfg⟩

lemma get_user_eq (s : RBACState) (res : Nat × Nat) (p : Principal) :
    get_user_permissions_on_resource s res p =
      if (aggregatePerms (userQs s res p)).read = none then none
      else some (aggregatePerms (userQs s res p)) := rfl

lemma get_role_eq (s : RBACState) (res : Nat × Nat) (role : Nat) :
    get_role_permissions_on_resource s res role =
      if (aggregatePerms (roleQs s res role)).read = none then none
      else some (aggregatePerms (roleQs s res role)) := rfl

lemma aggregate_read_none_iff (l : List RolePermission) :
    (aggregatePerms l).read = none ↔ l = [] := by
  show omax (l.map (·.read)) = none ↔ l = []
  rw [omax_eq_none_iff, List.map_eq_nil_iff]

lemma permAgg_mono {l1 l2 : List RolePermission} (h : ∀ g ∈ l1, g ∈ l2) :
    dictLe (if (aggregatePerms l1).read = none then none else some (aggregatePerms l1))
      (if (aggregatePerms l2).read = none then none else some (aggregatePerms l2)) := by
  intro dA hA
  by_cases h1 : (aggregatePerms l1).read = none
  · rw [if_pos h1] at hA
    exact absurd hA (by simp)
  · rw [if_neg h1] at hA
    have hdA := Option.some.inj hA
    subst hdA
    have hne1 : l1 ≠ [] := fun heq => h1 ((aggregate_read_none_iff l1).mpr heq)
    have hne2 : l2 ≠ [] := by
      intro heq
      subst heq
      obtain ⟨g, hg⟩ := List.exists_mem_of_ne_nil l1 hne1
      exact absurd (h g hg) (by simp)
    have h2 : ¬ (aggregatePerms l2).read = none := fun heq =>
      hne2 ((aggregate_read_none_iff l2).mp heq)
    refine ⟨aggregatePerms l2, by rw [if_neg h2], ?_, ?_, ?_, ?_, ?_, ?_, ?_, ?_⟩
    · exact omax_le_mono (map_mem_mono (·.create) h)
    · exact omax_le_mono (map_mem_mono (·.read) h)
    · exact omax_le_mono (map_mem_mono (·.write) h)
    · exact omax_le_mono (map_mem_mono (·.update) h)
    · exact omax_le_mono (map_mem_mono (·.delete) h)
    · exact omax_le_mono (map_mem_mono (·.scm_update) h)
    · exact omax_le_mono (map_mem_mono (·.execute) h)
    · exact omax_le_mono (map_mem_mono (·.use) h)

/-! ### Edge mutations -/

lemma applyEdge_roles (s : RBACState) (o : EdgeOp) :
    (applyEdge s o).roles = s.roles := by
  cases o <;> rfl

lemma applyEdge_ancestors (s : RBACState) (o : EdgeOp) :
    (applyEdge s o).ancestors = s.ancestors := by
  cases o <;> rfl

lemma applyEdge_parents_ne {s : RBACState} {o : EdgeOp} {x : Nat}
    (h : x ≠ o.role) : (applyEdge s o).parents x = s.parents x := by
  cases o with
  | add r p =>
    simp only [EdgeOp.role] at h
    simp [applyEdge, h]
  | remove r p =>
    simp only [EdgeOp.role] at h
    simp [applyEdge, h]

lemma applyEdge_target_ne {s : RBACState} {o : EdgeOp} {x : Nat}
    (h : x ≠ o.role) : target (applyEdge s o) x = target s x := by
  rw [target, target, applyEdge_parents_ne h, applyEdge_ancestors]

lemma applyEdge_inc {s : RBACState} {o : EdgeOp} :
    Inc (applyEdge s o) ⊆ Inc s ∪ {o.role} := by
  intro x hx
  rw [Inc, Finset.mem_filter] at hx
  by_cases hxr : x = o.role
  · exact Finset.mem_union_right _ (Finset.mem_singleton.mpr hxr)
  · refine Finset.mem_union_left _ ?_
    rw [Inc, Finset.mem_filter]
    refine ⟨by rw [← applyEdge_roles s o]; exact hx.1, ?_⟩
    intro heq
    apply hx.2
    rw [applyEdge_ancestors, applyEdge_target_ne hxr]
    exact heq

lemma applyEdge_noSelfLoop {s : RBACState} {o : EdgeOp} (hns : NoSelfLoop s)
    (hop : o.parentId ≠ o.role) : NoSelfLoop (applyEdge s o) := by
  intro x
  cases o with
  | add r p =>
    simp only [EdgeOp.parentId, EdgeOp.role] at hop
    simp only [applyEdge]
    by_cases hxr : x = r
    · subst hxr
      rw [if_pos rfl, Finset.mem_insert]
      rintro (heq | hmem)
      · exact hop heq.symm
      · exact hns x hmem
    · rw [if_neg hxr]
      exact hns x
  | remove r p =>
    simp only [applyEdge]
    by_cases hxr : x = r
    · subst hxr
      rw [if_pos rfl]
      intro hmem
      exact hns x (Finset.mem_of_mem_erase hmem)
    · rw [if_neg hxr]
      exact hns x

lemma applyEdge_closed {s : RBACState} {o : EdgeOp} (hc : Closed s)
    (hp : o.parentId ∈ s.roles) : Closed (applyEdge s o) := by
  intro x hx
  rw [applyEdge_roles] at hx
  intro y hy
  rw [applyEdge_roles]
  cases o with
  | add r p =>
    simp only [EdgeOp.parentId] at hp
    simp only [applyEdge] at hy
    by_cases hxr : x = r
    · rw [if_pos hxr] at hy
      rcases Finset.mem_insert.mp hy with rfl | hy2
      · exact hp
      · exact hc x hx hy2
    · rw [if_neg hxr] at hy
      exact hc x hx hy
  | remove r p =>
    simp only [applyEdge] at hy
    by_cases hxr : x = r
    · rw [if_pos hxr] at hy
      exact hc x hx (Finset.mem_of_mem_erase hy)
    · rw [if_neg hxr] at hy
      exact hc x hx hy

lemma foldl_parents_congr :
    ∀ (ops : List EdgeOp) (s t : RBACState), s.parents = t.parents →
      (ops.foldl applyEdge s).parents = (ops.foldl applyEdge t).parents := by
  intro ops
  induction ops with
  | nil =>
    intro s t h
    simpa using h
  | cons o rest ih =>
    intro s t h
    rw [List.foldl_cons, List.foldl_cons]
    refine ih _ _ ?_
    cases o with
    | add r p =>
      funext x
      simp only [applyEdge]
      rw [h]
    | remove r p =>
      funext x
      simp only [applyEdge]
      rw [h]

lemma foldl_applyEdge_roles (ops : List EdgeOp) :
    ∀ s : RBACState, (ops.foldl applyEdge s).roles = s.roles := by
  induction ops with
  | nil => intro s; rfl
  | cons o rest ih =>
    intro s
    rw [List.foldl_cons, ih, applyEdge_roles]

lemma foldl_applyEdge_ancestors (ops : List EdgeOp) :
    ∀ s : RBACState, (ops.foldl applyEdge s).ancestors = s.ancestors := by
  induction ops with
  | nil => intro s; rfl
  | cons o rest ih =>
    intro s
    rw [List.foldl_cons, ih, applyEdge_ancestors]

lemma foldl_applyEdge_inc (ops : List EdgeOp) :
    ∀ s : RBACState,
      Inc (ops.foldl applyEdge s) ⊆ Inc s ∪ (ops.map EdgeOp.role).toFinset := by
  induction ops with
  | nil =>
    intro s x hx
    exact Finset.mem_union_left _ hx
  | cons o rest ih =>
    intro s x hx
    rw [List.foldl_cons] at hx
    rcases Finset.mem_union.mp (ih (applyEdge s o) hx) with h1 | h2
    · rcases Finset.mem_union.mp (applyEdge_inc h1) with h3 | h4
      · exact Finset.mem_union_left _ h3
      · refine Finset.mem_union_right _ ?_
        rw [List.map_cons, List.toFinset_cons, Finset.mem_insert]
        exact Or.inl (Finset.mem_singleton.mp h4)
    · refine Finset.mem_union_right _ ?_
      rw [List.map_cons, List.toFinset_cons, Finset.mem_insert]
      exact Or.inr h2

lemma foldl_applyEdge_noSelfLoop (ops : List EdgeOp) :
    ∀ s : RBACState, NoSelfLoop s → (∀ o ∈ ops, o.parentId ≠ o.role) →
      NoSelfLoop (ops.foldl applyEdge s) := by
  induction ops with
  | nil =>
    intro s h _
    exact h
  | cons o rest ih =>
    intro s h hops
    rw [List.foldl_cons]
    exact ih _ (applyEdge_noSelfLoop h (hops o (List.mem_cons_self o rest)))
      (fun o' ho' => hops o' (List.mem_cons_of_mem o ho'))

lemma foldl_applyEdge_closed (ops : List EdgeOp) :
    ∀ s : RBACState, Closed s → (∀ o ∈ ops, o.parentId ∈ s.roles) →
      Closed (ops.foldl applyEdge s) := by
  induction ops with
  | nil =>
    intro s h _
    exact h
  | cons o rest ih =>
    intro s h hops
    rw [List.foldl_cons]
    refine ih _ (applyEdge_closed h (hops o (List.mem_cons_self o rest))) ?_
    intro o' ho'
    rw [applyEdge_roles]
    exact hops o' (List.mem_cons_of_mem o ho')

/-! ### The sequential (non-batched) mutation run -/

lemma seqRun_spec :
    ∀ (ops : List EdgeOp) (fuel : Nat) (s s' : RBACState),
      seqRun fuel s ops = some s' →
      (∀ o ∈ ops, o.role ∈ s.roles ∧ o.parentId ∈ s.roles ∧ o.parentId ≠ o.role) →
      NoSelfLoop s → Closed s → Inc s = ∅ →
      s'.roles = s.roles ∧
        s'.parents = (ops.foldl applyEdge s).parents ∧
        Inc s' = ∅ ∧
        ∀ x, x ∉ s.roles → s'.ancestors x = s.ancestors x := by
  intro ops
  induction ops with
  | nil =>
    intro fuel s s' h hops hns hcl hinc
    simp only [seqRun, Option.some.injEq] at h
    subst h
    exact ⟨rfl, rfl, hinc, fun x hx => rfl⟩
  | cons o rest ih =>
    intro fuel s s' h hops hns hcl hinc
    rw [seqRun] at h
    cases hr : rebuildFuel fuel (applyEdge s o) o.role with
    | none =>
      rw [hr] at h
      simp at h
    | some s1 =>
      rw [hr] at h
      have hop := hops o (List.mem_cons_self o rest)
      have hns2 : NoSelfLoop (applyEdge s o) := applyEdge_noSelfLoop hns hop.2.2
      have hcl2 : Closed (applyEdge s o) := applyEdge_closed hcl hop.2.1
      have hinc2 : Inc (applyEdge s o) ⊆ {o.role} := by
        intro x hx
        have hmem := applyEdge_inc hx
        rw [hinc] at hmem
        simpa using hmem
      have heff := ((rebuild_effects fuel).1 _ _ _ hr).1
      have hchg := ((rebuild_effects fuel).1 _ _ _ hr).2
      have hinc1 : Inc s1 = ∅ := by
        rw [Finset.eq_empty_iff_forall_not_mem]
        intro x hx
        have hsub := (rebuild_inc fuel).1 _ _ _ hr hns2 hx
        rw [Finset.mem_sdiff, Finset.mem_singleton] at hsub
        exact hsub.2 (Finset.mem_singleton.mp (hinc2 hsub.1))
      have hns1 : NoSelfLoop s1 := noSelfLoop_congr heff.2.1 hns2
      have hcl1 : Closed s1 := closed_congr heff.1 heff.2.1 hcl2
      have hroles1 : s1.roles = s.roles := heff.1.trans (applyEdge_roles s o)
      have hops1 : ∀ o' ∈ rest,
          o'.role ∈ s1.roles ∧ o'.parentId ∈ s1.roles ∧ o'.parentId ≠ o'.role := by
        intro o' ho'
        rw [hroles1]
        exact hops o' (List.mem_cons_of_mem o ho')
      obtain ⟨hr1, hp1, hi1, ha1⟩ := ih fuel s1 s' h hops1 hns1 hcl1 hinc1
      refine ⟨hr1.trans hroles1, ?_, hi1, ?_⟩
      · rw [hp1, List.foldl_cons]
        exact foldl_parents_congr rest s1 (applyEdge s o) heff.2.1
      · intro x hx
        have hx1 : x ∉ s1.roles := by
          rw [hroles1]
          exact hx
        rw [ha1 x hx1]
        have hanc1 : s1.ancestors x = (applyEdge s o).ancestors x := by
          by_contra hne
          rcases (hchg x hne).2 with h1 | h2
          · exact hx (h1 ▸ hop.1)
          · rw [applyEdge_roles] at h2
            exact hx h2
        rw [hanc1, applyEdge_ancestors]

/-! ### The batched mutation run -/

lemma batchApply_batching :
    ∀ (ops : List EdgeOp) (fuel : Nat) (ctx : Ctx) (s : RBACState),
      ctx.batching = true →
      batchApply fuel ops ctx s =
        (⟨true, ops.foldl (fun P o => insert o.role P) ctx.pending⟩,
          ops.foldl applyEdge s) := by
  intro ops
  induction ops with
  | nil =>
    intro fuel ctx s h
    obtain ⟨b, P⟩ := ctx
    simp only [Ctx.batching] at h
    subst h
    rfl
  | cons o rest ih =>
    intro fuel ctx s h
    have hcall : rebuild_role_ancestor_list fuel ctx (applyEdge s o) o.role
        = some ({ ctx with pending := insert o.role ctx.pending }, applyEdge s o) := by
      rw [rebuild_role_ancestor_list, if_pos h]
    have hstep : batchApply fuel (o :: rest) ctx s
        = batchApply fuel rest { ctx with pending := insert o.role ctx.pending }
            (applyEdge s o) := by
      rw [batchApply, hcall]
    rw [hstep, ih fuel { ctx with pending := insert o.role ctx.pending } (applyEdge s o) h]
    rfl

/-! ### Per-edge causality determines the final graph -/

lemma foldl_applyEdge_mem_parents :
    ∀ (ops : List EdgeOp) (s : RBACState) (r p : Nat),
      (p ∈ (ops.foldl applyEdge s).parents r) ↔
        edgeStatus (ops.filter (fun o => o.edge = (r, p)))
          (decide (p ∈ s.parents r)) = true := by
  intro ops
  induction ops with
  | nil =>
    intro s r p
    simp [edgeStatus]
  | cons o rest ih =>
    intro s r p
    rw [List.foldl_cons, ih (applyEdge s o) r p]
    have hkey : decide (p ∈ (applyEdge s o).parents r)
        = (if o.edge = (r, p) then o.isAdd else decide (p ∈ s.parents r)) := by
      cases o with
      | add r' p' =>
        simp only [applyEdge, EdgeOp.edge, EdgeOp.isAdd, EdgeOp.role, EdgeOp.parentId]
        by_cases hr : r = r'
        · subst hr
          by_cases hp : p' = p
          · subst hp
            simp [Finset.mem_insert]
          · have hcond : ¬ ((r, p') = (r, p)) := by
              simp [hp]
            have hmem : (p ∈ insert p' (s.parents r)) ↔ p ∈ s.parents r := by
              rw [Finset.mem_insert]
              constructor
              · rintro (rfl | hm)
                · exact absurd rfl hp
                · exact hm
              · exact Or.inr
            simp [hcond, hmem]
        · have hcond : ¬ ((r', p') = (r, p)) := by
            intro heq
            exact hr (congrArg Prod.fst heq).symm
          have hne : ¬ (r = r') := hr
          simp [hcond, hne]
      | remove r' p' =>
        simp only [applyEdge, EdgeOp.edge, EdgeOp.isAdd, EdgeOp.role, EdgeOp.parentId]
        by_cases hr : r = r'
        · subst hr
          by_cases hp : p' = p
          · subst hp
            simp [Finset.mem_erase]
          · have hcond : ¬ ((r, p') = (r, p)) := by
              simp [hp]
            have hmem : (p ∈ (s.parents r).erase p') ↔ p ∈ s.parents r := by
              rw [Finset.mem_erase]
              constructor
              · exact fun h => h.2
              · intro h
                exact ⟨fun heq => hp (heq.symm), h⟩
            simp [hcond, hmem]
        · have hcond : ¬ ((r', p') = (r, p)) := by
            intro heq
            exact hr (congrArg Prod.fst heq).symm
          have hne : ¬ (r = r') := hr
          simp [hcond, hne]
    rw [hkey]
    by_cases hedge : o.edge = (r, p)
    · rw [if_pos hedge]
      have hfil : (o :: rest).filter (fun o' => o'.edge = (r, p))
          = o :: rest.filter (fun o' => o'.edge = (r, p)) := by
        simp [List.filter_cons, hedge]
      rw [hfil]
      rfl
    · rw [if_neg hedge]
      have hfil : (o :: rest).filter (fun o' => o'.edge = (r, p))
          = rest.filter (fun o' => o'.edge = (r, p)) := by
        simp [List.filter_cons, hedge]
      rw [hfil]

lemma foldl_parents_eq_of_filter (ops1 ops2 : List EdgeOp) (s : RBACState)
    (h : ∀ e : Nat × Nat,
      ops1.filter (fun o => o.edge = e) = ops2.filter (fun o => o.edge = e)) :
    (ops1.foldl applyEdge s).parents = (ops2.foldl applyEdge s).parents := by
  funext r
  apply Finset.ext
  intro p
  rw [foldl_applyEdge_mem_parents, foldl_applyEdge_mem_parents, h (r, p)]

lemma filter_mem_trans {ops1 ops2 : List EdgeOp}
    (h : ∀ e : Nat × Nat,
      ops1.filter (fun o => o.edge = e) = ops2.filter (fun o => o.edge = e))
    {o : EdgeOp} (ho : o ∈ ops2) : o ∈ ops1 := by
  have hmem : o ∈ ops2.filter (fun o' => o'.edge = o.edge) :=
    List.mem_filter.mpr ⟨ho, by simp⟩
  rw [← h o.edge] at hmem
  exact (List.mem_filter.mp hmem).1

/-! ### Concrete-state helpers -/

lemma wC1_acyclic : Acyclic wC1 := by
  refine acyclic_of_rank (fun x => x) ?_
  intro a b hb
  simp only [stepOf, wC1] at hb
  by_cases ha : a = 2
  · subst ha
    rw [if_pos rfl] at hb
    have hb1 : b = 1 := Finset.mem_singleton.mp hb
    subst hb1
    decide
  · rw [if_neg ha] at hb
    exact absurd hb (Finset.not_mem_empty b)

lemma omax_map_isSome {l : List RolePermission} (h : l ≠ [])
    (f : RolePermission → Int) : (omax (l.map f)).isSome = true := by
  rw [Option.isSome_iff_ne_none]
  intro heq
  rw [omax_eq_none_iff] at heq
  exact h (List.map_eq_nil_iff.mp heq)

lemma absence_helper (l : List RolePermission) :
    ((if (aggregatePerms l).read = none then none else some (aggregatePerms l)) = none
      ↔ l = []) ∧
    ((if (aggregatePerms l).read = none then none else some (aggregatePerms l)) = none
      ↔ (aggregatePerms l).read = none) ∧
    (l ≠ [] → ∃ d,
      (if (aggregatePerms l).read = none then none else some (aggregatePerms l)) = some d ∧
      d.create.isSome = true ∧ d.read.isSome = true ∧ d.write.isSome = true ∧
      d.update.isSome = true ∧ d.delete.isSome = true ∧ d.scm_update.isSome = true ∧
      d.execute.isSome = true ∧ d.use.isSome = true) := by
  by_cases h : (aggregatePerms l).read = none
  · refine ⟨?_, ?_, ?_⟩
    · rw [if_pos h]
      simp [(aggregate_read_none_iff l).mp h]
    · rw [if_pos h]
      simp [h]
    · intro hne
      exact absurd ((aggregate_read_none_iff l).mp h) hne
  · have hne : l ≠ [] := fun heq => h ((aggregate_read_none_iff l).mpr heq)
    refine ⟨?_, ?_, ?_⟩
    · rw [if_neg h]
      simp [hne]
    · rw [if_neg h]
      simp [h]
    · intro _
      refine ⟨aggregatePerms l, by rw [if_neg h], ?_, ?_, ?_, ?_, ?_, ?_, ?_, ?_⟩
      · exact omax_map_isSome hne (·.create)
      · exact omax_map_isSome hne (·.read)
      · exact omax_map_isSome hne (·.write)
      · exact omax_map_isSome hne (·.update)
      · exact omax_map_isSome hne (·.delete)
      · exact omax_map_isSome hne (·.scm_update)
      · exact omax_map_isSome hne (·.execute)
      · exact omax_map_isSome hne (·.use)

/-! ### Claim C7 -/

/-- Claim C7: for every resource and principal (or role), with zero
applicable Permission Grants both permission queries return the
distinguished absence value none rather than an all-zero record, and this
absence holds exactly when the aggregated read field is absent; with at
least one applicable grant a full record with every capability field
present is returned. -/
theorem C7_absence_signaling :
    ∀ (s : RBACState) (res : Nat × Nat) (p : Principal) (role : Nat),
      (get_user_permissions_on_resource s res p = none ↔ userQs s res p = []) ∧
      (get_user_permissions_on_resource s res p = none ↔
        (aggregatePerms (userQs s res p)).read = none) ∧
      (userQs s res p ≠ [] → ∃ d,
        get_user_permissions_on_resource s res p = some d ∧
        d.create.isSome = true ∧ d.read.isSome = true ∧ d.write.isSome = true ∧
        d.update.isSome = true ∧ d.delete.isSome = true ∧ d.scm_update.isSome = true ∧
        d.execute.isSome = true ∧ d.use.isSome = true) ∧
      (get_role_permissions_on_resource s res role = none ↔ roleQs s res role = []) ∧
      (get_role_permissions_on_resource s res role = none ↔
        (aggregatePerms (roleQs s res role)).read = none) ∧
      (roleQs s res role ≠ [] → ∃ d,
        get_role_permissions_on_resource s res role = some d ∧
        d.create.isSome = true ∧ d.read.isSome = true ∧ d.write.isSome = true ∧
        d.update.isSome = true ∧ d.delete.isSome = true ∧ d.scm_update.isSome = true ∧
        d.execute.isSome = true ∧ d.use.isSome = true) := by
  intro s res p role
  have hu := absence_helper (userQs s res p)
  have hr := absence_helper (roleQs s res role)
  rw [get_user_eq, get_role_eq]
  exact ⟨hu.1, hu.2.1, hu.2.2, hr.1, hr.2.1, hr.2.2⟩

/-- Witness for C7 at a concrete state: on resource (5, 7) with user 10
and role 2 of the state cex. -/
theorem C7_witness :
    (get_user_permissions_on_resource cex (5, 7) (Principal.user 10) = none ↔
      userQs cex (5, 7) (Principal.user 10) = []) ∧
    (get_user_permissions_on_resource cex (5, 7) (Principal.user 10) = none ↔
      (aggregatePerms (userQs cex (5, 7) (Principal.user 10))).read = none) ∧
    (userQs cex (5, 7) (Principal.user 10) ≠ [] → ∃ d,
      get_user_permissions_on_resource cex (5, 7) (Principal.user 10) = some d ∧
      d.create.isSome = true ∧ d.read.isSome = true ∧ d.write.isSome = true ∧
      d.update.isSome = true ∧ d.delete.isSome = true ∧ d.scm_update.isSome = true ∧
      d.execute.isSome = true ∧ d.use.isSome = true) ∧
    (get_role_permissions_on_resource cex (5, 7) 2 = none ↔ roleQs cex (5, 7) 2 = []) ∧
    (get_role_permissions_on_resource cex (5, 7) 2 = none ↔
      (aggregatePerms (roleQs cex (5, 7) 2)).read = none) ∧
    (roleQs cex (5, 7) 2 ≠ [] → ∃ d,
      get_role_permissions_on_resource cex (5, 7) 2 = some d ∧
      d.create.isSome = true ∧ d.read.isSome = true ∧ d.write.isSome = true ∧
      d.update.isSome = true ∧ d.delete.isSome = true ∧ d.scm_update.isSome = true ∧
      d.execute.isSome = true ∧ d.use.isSome = true) :=
  C7_absence_signaling cex (5, 7) (Principal.user 10) 2

/-! ### Claims C2 and C3 -/

/-- Counterexample to claim C2 as stated. In cex user 10 directly holds
role 2 and role 1 is an ancestor of role 2 (1 is in ancestors(2)), so the
claimed selection rule ("grants whose role is an ancestor of a held role")
would select the read grant sitting on role 1 and report read = 1; the
implemented query (role__ancestors__in = held roles) selects nothing and
returns the absence value. -/
theorem C2_counterexample :
    get_user_permissions_on_resource cex (5, 7) (Principal.user 10) = none ∧
    specUserPerms cex (5, 7) (Principal.user 10)
      = some ⟨some 0, some 1, some 0, some 0, some 0, some 0, some 0, some 0⟩ := by
  constructor
  · decide
  · decide

/-- Claim C2 (amended): get_user_permissions_on_resource resolves the
principal's directly-held roles via members assignments (resource_ref for
a non-user principal), selects exactly the grants on the resource whose
role has one of those directly-held roles among its ancestors (i.e. whose
role is the held role or a descendant of it), and aggregates per-flag
maxima, so two selected grants with disjoint flags both appear. -/
theorem C2_amended_user_query :
    ∀ (s : RBACState) (res : Nat × Nat) (p : Principal),
      (∀ g, g ∈ userQs s res p ↔
        (g ∈ s.perms ∧ g.content_type = res.1 ∧ g.object_id = res.2 ∧
          ∃ h, h ∈ heldRoles s p ∧ h ∈ s.ancestors g.role)) ∧
      (userQs s res p ≠ [] →
        get_user_permissions_on_resource s res p
          = some (aggregatePerms (userQs s res p))) ∧
      (∀ g1 g2, g1 ∈ userQs s res p → g2 ∈ userQs s res p →
        1 ≤ g1.read → 1 ≤ g2.write →
        ∃ d, get_user_permissions_on_resource s res p = some d ∧
          (∃ v, d.read = some v ∧ 1 ≤ v) ∧ (∃ w, d.write = some w ∧ 1 ≤ w)) := by
  intro s res p
  have hmem : ∀ g, g ∈ userQs s res p ↔
      (g ∈ s.perms ∧ g.content_type = res.1 ∧ g.object_id = res.2 ∧
        ∃ h, h ∈ heldRoles s p ∧ h ∈ s.ancestors g.role) := by
    intro g
    rw [userQs, List.mem_filter]
    have hnonempty : (s.ancestors g.role ∩ heldRoles s p).Nonempty ↔
        ∃ h, h ∈ heldRoles s p ∧ h ∈ s.ancestors g.role := by
      constructor
      · rintro ⟨a, ha⟩
        rw [Finset.mem_inter] at ha
        exact ⟨a, ha.2, ha.1⟩
      · rintro ⟨h, hh, ha⟩
        exact ⟨h, Finset.mem_inter.mpr ⟨ha, hh⟩⟩
    constructor
    · rintro ⟨hg, hcond⟩
      rw [decide_eq_true_eq] at hcond
      exact ⟨hg, hcond.1, hcond.2.1, hnonempty.mp hcond.2.2⟩
    · rintro ⟨hg, h1, h2, h3⟩
      refine ⟨hg, ?_⟩
      rw [decide_eq_true_eq]
      exact ⟨h1, h2, hnonempty.mpr h3⟩
  have hne : userQs s res p ≠ [] →
      get_user_permissions_on_resource s res p
        = some (aggregatePerms (userQs s res p)) := by
    intro h
    rw [get_user_eq, if_neg]
    intro heq
    exact h ((aggregate_read_none_iff _).mp heq)
  refine ⟨hmem, hne, ?_⟩
  intro g1 g2 hg1 hg2 hr1 hw2
  have hqne : userQs s res p ≠ [] := fun heq => by
    rw [heq] at hg1
    exact absurd hg1 (List.not_mem_nil g1)
  refine ⟨aggregatePerms (userQs s res p), hne hqne, ?_, ?_⟩
  · obtain ⟨v, hv, hle⟩ := le_omax_of_mem
      (List.mem_map_of_mem (·.read) hg1)
    exact ⟨v, hv, hr1.trans hle⟩
  · obtain ⟨w, hw, hle⟩ := le_omax_of_mem
      (List.mem_map_of_mem (·.write) hg2)
    exact ⟨w, hw, hw2.trans hle⟩


/-- Witness for the amended C2 at the concrete state cexOr: the read grant
and the write grant on role 1 are both selected for user 20, and the
returned record carries both read = 1 and write = 1. -/
theorem C2_amended_witness :
    ∃ d, get_user_permissions_on_resource cexOr (5, 7) (Principal.user 20) = some d ∧
      (∃ v, d.read = some v ∧ 1 ≤ v) ∧ (∃ w, d.write = some w ∧ 1 ≤ w) :=
  (C2_amended_user_query cexOr (5, 7) (Principal.user 20)).2.2
    ⟨1, 5, 7, false, 0, 1, 0, 0, 0, 0, 0, 0⟩ ⟨1, 5, 7, true, 0, 0, 1, 0, 0, 0, 0, 0⟩
    (by decide) (by decide) (by decide) (by decide)

/-- Counterexample to claim C3 as stated. In cex role 1 is an ancestor of
role 2, so the claimed selection rule ("grants whose role is an ancestor
of, or equal to, the given role") would select the read grant on role 1
when querying role 2; the implemented query (role__ancestors = role)
selects nothing and returns the absence value. -/
theorem C3_counterexample :
    get_role_permissions_on_resource cex (5, 7) 2 = none ∧
    specRolePerms cex (5, 7) 2
      = some ⟨some 0, some 1, some 0, some 0, some 0, some 0, some 0, some 0⟩ := by
  constructor
  · decide
  · decide

/-- Claim C3 (amended): get_role_permissions_on_resource aggregates
per-flag maxima over exactly those grants on the resource whose role has
the single given role R among its ancestors (i.e. whose role is R or a
descendant of R). -/
theorem C3_amended_role_query :
    ∀ (s : RBACState) (res : Nat × Nat) (role : Nat),
      (∀ g, g ∈ roleQs s res role ↔
        (g ∈ s.perms ∧ g.content_type = res.1 ∧ g.object_id = res.2 ∧
          role ∈ s.ancestors g.role)) ∧
      (roleQs s res role ≠ [] →
        get_role_permissions_on_resource s res role
          = some (aggregatePerms (roleQs s res role))) ∧
      (∀ d, get_role_permissions_on_resource s res role = some d →
        d.create = omax ((roleQs s res role).map (·.create)) ∧
        d.read = omax ((roleQs s res role).map (·.read)) ∧
        d.write = omax ((roleQs s res role).map (·.write)) ∧
        d.update = omax ((roleQs s res role).map (·.update)) ∧
        d.delete = omax ((roleQs s res role).map (·.delete)) ∧
        d.scm_update = omax ((roleQs s res role).map (·.scm_update)) ∧
        d.execute = omax ((roleQs s res role).map (·.execute)) ∧
        d.use = omax ((roleQs s res role).map (·.use))) := by
  intro s res role
  refine ⟨?_, ?_, ?_⟩
  · intro g
    rw [roleQs, List.mem_filter, decide_eq_true_eq]
  · intro h
    rw [get_role_eq, if_neg]
    intro heq
    exact h ((aggregate_read_none_iff _).mp heq)
  · intro d hd
    rw [get_role_eq] at hd
    by_cases h : (aggregatePerms (roleQs s res role)).read = none
    · rw [if_pos h] at hd
      exact absurd hd (by simp)
    · rw [if_neg h] at hd
      have hda := Option.some.inj hd
      subst hda
      exact ⟨rfl, rfl, rfl, rfl, rfl, rfl, rfl, rfl⟩

/-- Witness for the amended C3 at the concrete state cex, querying role 1
itself: its own read grant is selected and aggregated. -/
theorem C3_amended_witness :
    (⟨1, 5, 7, false, 0, 1, 0, 0, 0, 0, 0, 0⟩ ∈ roleQs cex (5, 7) 1 ↔
      ((⟨1, 5, 7, false, 0, 1, 0, 0, 0, 0, 0, 0⟩ : RolePermission) ∈ cex.perms ∧
        (5 : Nat) = 5 ∧ (7 : Nat) = 7 ∧
        1 ∈ cex.ancestors 1)) ∧
    (roleQs cex (5, 7) 1 ≠ [] →
      get_role_permissions_on_resource cex (5, 7) 1
        = some (aggregatePerms (roleQs cex (5, 7) 1))) :=
  ⟨((C3_amended_role_query cex (5, 7) 1).1 ⟨1, 5, 7, false, 0, 1, 0, 0, 0, 0, 0, 0⟩),
    (C3_amended_role_query cex (5, 7) 1).2.1⟩

/-! ### Claim C6 -/

/-- Counterexample to claim C6 as stated: a cyclic role graph on which the
rebuild recursion is not unbounded. In cyc roles 1 and 2 are each other's
parent (a directed cycle), yet rebuild(1) stops immediately because the
computed target already equals the stored set. -/
theorem C6_counterexample :
    Relation.TransGen (stepOf cyc) 1 1 ∧ rebuildFuel 1 cyc 1 = some cyc := by
  constructor
  · have h12 : stepOf cyc 1 2 := by
      show 2 ∈ cyc.parents 1
      decide
    have h21 : stepOf cyc 2 1 := by
      show 1 ∈ cyc.parents 2
      decide
    exact Relation.TransGen.head h12 (Relation.TransGen.single h21)
  · rfl

/-- Claim C6 (amended): on every finite acyclic role graph the
child-propagating recursion of the rebuild terminates — recursion depth
card(roles) + 1 always suffices, because every call either changes the
target role's stored set and pushes to its children or stops propagating;
acyclicity is the precondition for this bound, but a cyclic graph does not
necessarily cause unbounded recursion (see the counterexample). -/
theorem C6_acyclic_termination :
    ∀ (s : RBACState) (r : Nat), Acyclic s →
      (rebuildFuel (s.roles.card + 1) s r).isSome = true :=
  fun s r hacy => rebuild_total hacy r

/-- Witness for C6 on the concrete acyclic state wC1. -/
theorem C6_witness :
    Acyclic wC1 ∧ (rebuildFuel (wC1.roles.card + 1) wC1 2).isSome = true :=
  ⟨wC1_acyclic, C6_acyclic_termination wC1 2 wC1_acyclic⟩

/-! ### Claim C9 -/

/-- Claim C9: with no batch active and no intervening mutation, a second
rebuild of the same role is a no-op: after a completed rebuild the
computed target equals the stored set, so the second call stops without
writing, does not propagate to any child, and leaves the state (hence
ancestors(R)) unchanged. -/
theorem C9_idempotent :
    ∀ (s : RBACState) (r : Nat) (n m : Nat) (s1 : RBACState),
      Acyclic s → rebuildFuel n s r = some s1 →
      target s1 r = s1.ancestors r ∧ rebuildFuel (m + 1) s1 r = some s1 := by
  intro s r n m s1 hacy h
  have hfix := rebuild_fixes hacy h
  refine ⟨hfix.symm, ?_⟩
  rw [rebuildFuel, if_pos hfix.symm]

/-- Witness for C9 on the concrete state wC1: rebuilding role 2 once and
then again. -/
theorem C9_witness :
    target (setAnc wC1 2 (target wC1 2)) 2
        = (setAnc wC1 2 (target wC1 2)).ancestors 2 ∧
      rebuildFuel 1 (setAnc wC1 2 (target wC1 2)) 2
        = some (setAnc wC1 2 (target wC1 2)) :=
  C9_idempotent wC1 2 2 0 (setAnc wC1 2 (target wC1 2)) wC1_acyclic rfl

/-! ### Claim C1 -/

/-- Claim C1: outside any batch window, for a role R of an acyclic graph
whose parents' ancestor sets are already correct, a completed rebuild(R)
leaves the stored set equal to the set containing R together with every
ancestor of every parent of R, and when the computed target differs from
the stored set the rebuild proceeds by recursing into exactly the direct
children of R. -/
theorem C1_rebuild_invariant :
    ∀ (s : RBACState) (r : Nat) (n : Nat) (s' : RBACState),
      Acyclic s →
      (∀ p ∈ s.parents r, s.ancestors p = target s p) →
      rebuildFuel n s r = some s' →
      s'.ancestors r = insert r ((s'.parents r).biUnion s'.ancestors) ∧
        (∀ m, n = m + 1 → target s r ≠ s.ancestors r →
          rebuildFuel n s r
            = goList (rebuildFuel m) (setAnc s r (target s r)) (childrenList s r) ∧
          ∀ c ∈ s.roles, r ∈ s.parents c → c ∈ childrenList s r) := by
  intro s r n s' hacy hpar h
  constructor
  · have hfix := rebuild_fixes hacy h
    rwa [target] at hfix
  · intro m hm hne
    subst hm
    constructor
    · rw [rebuildFuel, if_neg hne]
    · intro c hc hpc
      rw [mem_childrenList]
      exact ⟨hc, hpc⟩

/-- Witness for C1 on the concrete state wC1: rebuilding role 2, whose
stored set is stale, writes the correct closure. -/
theorem C1_witness :
    (setAnc wC1 2 (target wC1 2)).ancestors 2
        = insert 2 (((setAnc wC1 2 (target wC1 2)).parents 2).biUnion
            (setAnc wC1 2 (target wC1 2)).ancestors) ∧
      (∀ m, 2 = m + 1 → target wC1 2 ≠ wC1.ancestors 2 →
        rebuildFuel 2 wC1 2
          = goList (rebuildFuel m) (setAnc wC1 2 (target wC1 2)) (childrenList wC1 2) ∧
        ∀ c ∈ wC1.roles, 2 ∈ wC1.parents c → c ∈ childrenList wC1 2) :=
  C1_rebuild_invariant wC1 2 2 (setAnc wC1 2 (target wC1 2)) wC1_acyclic (by decide) rfl

/-! ### Claims C4 and C10 -/

/-- Claim C4: while a batch is active in the current context, any call to
the rebuild entry point only inserts the role id into the context-local
collection and returns with the database untouched; on exit of an
outermost batch scope the collected ids are flushed (each existing one
refetched and rebuilt, inside the single flush) and the collection is
cleared; entering a nested scope runs the body against the existing
collection and creates no separate flush point. -/
theorem C4_batching_protocol :
    (∀ (fuel : Nat) (ctx : Ctx) (s : RBACState) (r : Nat), ctx.batching = true →
      rebuild_role_ancestor_list fuel ctx s r
        = some ({ ctx with pending := insert r ctx.pending }, s)) ∧
    (∀ (fuel : Nat) (nb : Bool) (body : Ctx → RBACState → Ctx × RBACState × Bool)
        (ctx : Ctx) (s : RBACState) (c2 : Ctx) (s2 : RBACState) (ok : Bool),
      ctx.batching = false → body ⟨true, ∅⟩ s = (c2, s2, ok) →
      batch_role_ancestor_rebuilding fuel nb body ctx s
        = match flushPending fuel s2 c2.pending with
          | none => none
          | some s3 => some (⟨false, ∅⟩, s3, ok)) ∧
    (∀ (fuel : Nat) (nb : Bool) (body : Ctx → RBACState → Ctx × RBACState × Bool)
        (ctx : Ctx) (s : RBACState) (c2 : Ctx) (s2 : RBACState) (ok : Bool),
      ctx.batching = true → body ctx s = (c2, s2, ok) →
      batch_role_ancestor_rebuilding fuel nb body ctx s
        = some ({ c2 with batching := true }, s2, ok)) := by
  refine ⟨?_, ?_, ?_⟩
  · intro fuel ctx s r h
    rw [rebuild_role_ancestor_list, if_pos h]
  · intro fuel nb body ctx s c2 s2 ok h hbody
    obtain ⟨b, P⟩ := ctx
    simp only [Ctx.batching] at h
    subst h
    have h1 : batch_role_ancestor_rebuilding fuel nb body ⟨false, P⟩ s
        = match flushPending fuel (body ⟨true, ∅⟩ s).2.1 (body ⟨true, ∅⟩ s).1.pending with
          | none => none
          | some s3 => some (⟨false, ∅⟩, s3, (body ⟨true, ∅⟩ s).2.2) := rfl
    rw [h1, hbody]
  · intro fuel nb body ctx s c2 s2 ok h hbody
    obtain ⟨b, P⟩ := ctx
    simp only [Ctx.batching] at h
    subst h
    have h1 : batch_role_ancestor_rebuilding fuel nb body ⟨true, P⟩ s
        = some ({ (body ⟨true, P⟩ s).1 with batching := true },
            (body ⟨true, P⟩ s).2.1, (body ⟨true, P⟩ s).2.2) := rfl
    rw [h1, hbody]

/-- Witness for C4: a concrete batched call, a concrete outermost flush
and a concrete nested scope on the state cex. -/
theorem C4_witness :
    rebuild_role_ancestor_list 1 ⟨true, ∅⟩ cex 2
        = some ({ (⟨true, ∅⟩ : Ctx) with pending := insert 2 (∅ : Finset Nat) }, cex) ∧
    (batch_role_ancestor_rebuilding 1 false (fun _ s => (⟨true, {2}⟩, s, true))
        ⟨false, ∅⟩ cex
      = match flushPending 1 cex ({2} : Finset Nat) with
        | none => none
        | some s3 => some (⟨false, ∅⟩, s3, true)) ∧
    batch_role_ancestor_rebuilding 1 false (fun c s => (c, s, true)) ⟨true, {5}⟩ cex
      = some ({ (⟨true, ({5} : Finset Nat)⟩ : Ctx) with batching := true }, cex, true) :=
  ⟨C4_batching_protocol.1 1 ⟨true, ∅⟩ cex 2 rfl,
    C4_batching_protocol.2.1 1 false (fun _ s => (⟨true, {2}⟩, s, true))
      ⟨false, ∅⟩ cex ⟨true, {2}⟩ cex true rfl rfl,
    C4_batching_protocol.2.2 1 false (fun c s => (c, s, true))
      ⟨true, {5}⟩ cex ⟨true, {5}⟩ cex true rfl rfl⟩

/-- Claim C10: if the body of an outermost batch scope raises (modelled by
the body's Bool exit flag being false), the finally block still runs:
every role id collected by the body before the exception is flushed
(refetched and rebuilt in the single flush transaction), the pending
collection is cleared, and the batch flag is restored to its prior value
false, before the exception continues to propagate. -/
theorem C10_exception_still_flushes :
    ∀ (fuel : Nat) (nb : Bool) (body : Ctx → RBACState → Ctx × RBACState × Bool)
      (ctx : Ctx) (s : RBACState) (c2 : Ctx) (s2 s3 : RBACState),
      ctx.batching = false →
      body ⟨true, ∅⟩ s = (c2, s2, false) →
      flushPending fuel s2 c2.pending = some s3 →
      batch_role_ancestor_rebuilding fuel nb body ctx s
        = some (⟨false, ∅⟩, s3, false) := by
  intro fuel nb body ctx s c2 s2 s3 h hbody hflush
  obtain ⟨b, P⟩ := ctx
  simp only [Ctx.batching] at h
  subst h
  have h1 : batch_role_ancestor_rebuilding fuel nb body ⟨false, P⟩ s
      = match flushPending fuel (body ⟨true, ∅⟩ s).2.1 (body ⟨true, ∅⟩ s).1.pending with
        | none => none
        | some s3 => some (⟨false, ∅⟩, s3, (body ⟨true, ∅⟩ s).2.2) := rfl
  rw [h1, hbody]
  simp only [hflush]

/-- Witness for C10: a body that collects role 2 and then fails, on the
state cex; the flush still rebuilds role 2 and the scope exits with the
flag restored and the collection empty. -/
theorem C10_witness :
    batch_role_ancestor_rebuilding 1 false (fun _ s => (⟨true, {2}⟩, s, false))
        ⟨false, ∅⟩ cex
      = some (⟨false, ∅⟩, cex, false) :=
  C10_exception_still_flushes 1 false (fun _ s => (⟨true, {2}⟩, s, false))
    ⟨false, ∅⟩ cex ⟨true, {2}⟩ cex cex rfl rfl rfl

/-! ### Claim C8 -/

lemma applyEdge_perms (s : RBACState) (o : EdgeOp) :
    (applyEdge s o).perms = s.perms := by
  cases o <;> rfl

lemma w8_add_acyclic : Acyclic (applyEdge w8 (EdgeOp.add 1 2)) := by
  refine acyclic_of_rank (fun x => if x = 1 then 1 else 0) ?_
  intro a b hb
  simp only [stepOf, applyEdge, w8] at hb
  by_cases ha : a = 1
  · rw [if_pos ha] at hb
    rcases Finset.mem_insert.mp hb with rfl | hb2
    · subst ha
      decide
    · exact absurd hb2 (Finset.not_mem_empty b)
  · rw [if_neg ha] at hb
    exact absurd hb (Finset.not_mem_empty b)

/-- Claim C8: starting from an acyclic graph with a globally consistent
closure, adding a parent edge to role R and completing the closure
maintenance only adds elements to ancestors(R); consequently, for every
resource, get_role_permissions_on_resource(R) after the addition
dominates its value before, per flag, with the absence value below every
record. -/
theorem C8_add_parent_monotone :
    ∀ (s : RBACState) (r p : Nat) (n : Nat) (s3 : RBACState),
      (∀ x ∈ s.roles, s.ancestors x = target s x) →
      Closed s → r ∈ s.roles → p ∈ s.roles →
      Acyclic (applyEdge s (EdgeOp.add r p)) →
      rebuildFuel n (applyEdge s (EdgeOp.add r p)) r = some s3 →
      s.ancestors r ⊆ s3.ancestors r ∧
        ∀ res : Nat × Nat,
          dictLe (get_role_permissions_on_resource s res r)
            (get_role_permissions_on_resource s3 res r) := by
  intro s r p n s3 hcons hcl hr hp hacy2 hreb
  have hns2 : NoSelfLoop (applyEdge s (EdgeOp.add r p)) := noSelfLoop_of_acyclic hacy2
  have hinc2 : Inc (applyEdge s (EdgeOp.add r p)) ⊆ {r} := by
    intro x hx
    rw [Inc, Finset.mem_filter] at hx
    by_cases hxr : x = r
    · exact Finset.mem_singleton.mpr hxr
    · exfalso
      apply hx.2
      have hxo : x ≠ (EdgeOp.add r p).role := hxr
      rw [applyEdge_ancestors, applyEdge_target_ne hxo]
      refine hcons x ?_
      rw [← applyEdge_roles s (EdgeOp.add r p)]
      exact hx.1
  have hinc3 : Inc s3 = ∅ := by
    rw [Finset.eq_empty_iff_forall_not_mem]
    intro x hx
    have hsub := (rebuild_inc n).1 _ _ _ hreb hns2 hx
    rw [Finset.mem_sdiff, Finset.mem_singleton] at hsub
    exact hsub.2 (Finset.mem_singleton.mp (hinc2 hsub.1))
  have heff := ((rebuild_effects n).1 _ _ _ hreb).1
  have hchg := ((rebuild_effects n).1 _ _ _ hreb).2
  have hroles3 : s3.roles = s.roles :=
    heff.1.trans (applyEdge_roles s (EdgeOp.add r p))
  have hcons3 : ∀ x ∈ s3.roles, s3.ancestors x = target s3 x := inc_empty_iff.mp hinc3
  have hcl2 : Closed (applyEdge s (EdgeOp.add r p)) := applyEdge_closed hcl hp
  have hmono : ∀ x ∈ s.roles, s.ancestors x ⊆ s3.ancestors x := by
    refine fix_mono s.roles s.parents s3.parents ?_ ?_ ?_ s.ancestors s3.ancestors ?_ ?_
    · intro x hx
      rw [heff.2.1]
      by_cases hxr : x = r
      · subst hxr
        intro v hv
        show v ∈ (applyEdge s (EdgeOp.add x p)).parents x
        simp only [applyEdge, if_pos rfl]
        exact Finset.mem_insert_of_mem hv
      · intro v hv
        show v ∈ (applyEdge s (EdgeOp.add r p)).parents x
        rwa [applyEdge_parents_ne (show x ≠ (EdgeOp.add r p).role from hxr)]
    · intro x hx
      rw [heff.2.1]
      have := hcl2 x (by rwa [applyEdge_roles])
      rwa [applyEdge_roles] at this
    · intro x hx
      rw [acyclic_iff_fun] at hacy2
      rw [heff.2.1] at hx
      exact hacy2 x hx
    · intro x hx
      have := hcons x hx
      rwa [target] at this
    · intro x hx
      have := hcons3 x (by rwa [hroles3])
      rwa [target] at this
  have hanc_out : ∀ x, x ∉ s.roles → s3.ancestors x = s.ancestors x := by
    intro x hx
    have h1 : s3.ancestors x = (applyEdge s (EdgeOp.add r p)).ancestors x := by
      by_contra hne
      rcases (hchg x hne).2 with h1 | h2
      · exact hx (h1 ▸ hr)
      · rw [applyEdge_roles] at h2
        exact hx h2
    rw [h1, applyEdge_ancestors]
  refine ⟨hmono r hr, ?_⟩
  intro res
  rw [get_role_eq, get_role_eq]
  refine permAgg_mono ?_
  intro g hg
  rw [roleQs, List.mem_filter, decide_eq_true_eq] at hg ⊢
  have hperms3 : s3.perms = s.perms :=
    heff.2.2.2.2.trans (applyEdge_perms s (EdgeOp.add r p))
  refine ⟨by rw [hperms3]; exact hg.1, hg.2.1, hg.2.2.1, ?_⟩
  by_cases hrole : g.role ∈ s.roles
  · exact hmono g.role hrole hg.2.2.2
  · rw [hanc_out g.role hrole]
    exact hg.2.2.2

/-- Witness for C8 on the concrete state w8: adding parent 2 to role 1
and rebuilding grows ancestors(1) from the singleton to the pair, and the
role query on resource (5, 7) is dominated afterwards. -/
theorem C8_witness :
    w8.ancestors 1
        ⊆ (setAnc (applyEdge w8 (EdgeOp.add 1 2)) 1
            (target (applyEdge w8 (EdgeOp.add 1 2)) 1)).ancestors 1 ∧
      ∀ res : Nat × Nat,
        dictLe (get_role_permissions_on_resource w8 res 1)
          (get_role_permissions_on_resource
            (setAnc (applyEdge w8 (EdgeOp.add 1 2)) 1
              (target (applyEdge w8 (EdgeOp.add 1 2)) 1)) res 1) :=
  C8_add_parent_monotone w8 1 2 2
    (setAnc (applyEdge w8 (EdgeOp.add 1 2)) 1 (target (applyEdge w8 (EdgeOp.add 1 2)) 1))
    (by decide)
    (by
      show ∀ x ∈ w8.roles, w8.parents x ⊆ w8.roles
      decide)
    (by decide) (by decide) w8_add_acyclic rfl

/-! ### Claim C5 -/

lemma batch_outer_eq (fuel : Nat) (nb : Bool)
    (body : Ctx → RBACState → Ctx × RBACState × Bool) (P : Finset Nat)
    (s : RBACState) (c2 : Ctx) (s2 : RBACState) (ok : Bool)
    (hbody : body ⟨true, ∅⟩ s = (c2, s2, ok)) :
    batch_role_ancestor_rebuilding fuel nb body ⟨false, P⟩ s
      = match flushPending fuel s2 c2.pending with
        | none => none
        | some s3 => some (⟨false, ∅⟩, s3, ok) := by
  have h1 : batch_role_ancestor_rebuilding fuel nb body ⟨false, P⟩ s
      = match flushPending fuel (body ⟨true, ∅⟩ s).2.1 (body ⟨true, ∅⟩ s).1.pending with
        | none => none
        | some s3 => some (⟨false, ∅⟩, s3, (body ⟨true, ∅⟩ s).2.2) := rfl
  rw [h1, hbody]

lemma foldl_insert_role_mem :
    ∀ (ops : List EdgeOp) (P : Finset Nat) (x : Nat),
      (x ∈ ops.foldl (fun P o => insert o.role P) P ↔
        x ∈ P ∨ ∃ o ∈ ops, o.role = x) := by
  intro ops
  induction ops with
  | nil =>
    intro P x
    simp
  | cons o rest ih =>
    intro P x
    rw [List.foldl_cons, ih (insert o.role P) x]
    simp only [Finset.mem_insert, List.mem_cons]
    constructor
    · rintro ((h1 | h2) | ⟨o', ho', h3⟩)
      · exact Or.inr ⟨o, Or.inl rfl, h1.symm⟩
      · exact Or.inl h2
      · exact Or.inr ⟨o', Or.inr ho', h3⟩
    · rintro (h1 | ⟨o', ho' | ho', h3⟩)
      · exact Or.inl (Or.inr h1)
      · subst ho'
        exact Or.inl (Or.inl h3.symm)
      · exact Or.inr ⟨o', ho', h3⟩

/-- Claim C5: starting from a consistent acyclic closure, performing the
mutations inside one batch scope (each mutation registering its role with
the batch coordinator) and flushing at the close of the scope produces
exactly the closure produced by performing the same mutations sequentially
with no batch active — for any two application orders that agree on the
per-edge subsequences (per-edge causality). -/
theorem C5_batch_equivalence :
    ∀ (fuel : Nat) (s0 : RBACState) (ops1 ops2 : List EdgeOp)
      (s1 : RBACState) (c2 : Ctx) (s2 : RBACState) (ok : Bool),
      (∀ x ∈ s0.roles, s0.ancestors x = target s0 x) →
      Closed s0 → NoSelfLoop s0 →
      (∀ o ∈ ops1, o.role ∈ s0.roles ∧ o.parentId ∈ s0.roles ∧ o.parentId ≠ o.role) →
      (∀ e : Nat × Nat,
        ops1.filter (fun o => o.edge = e) = ops2.filter (fun o => o.edge = e)) →
      Acyclic (ops1.foldl applyEdge s0) →
      seqRun fuel s0 ops2 = some s1 →
      batch_role_ancestor_rebuilding fuel false
        (fun ctx s =>
          ((batchApply fuel ops1 ctx s).1, (batchApply fuel ops1 ctx s).2, true))
        ⟨false, ∅⟩ s0 = some (c2, s2, ok) →
      ∀ x, s1.ancestors x = s2.ancestors x := by
  intro fuel s0 ops1 ops2 s1 c2 s2 ok hcons hcl hns hops1 hfil hacyF hseq hbatch
  have hops2 : ∀ o ∈ ops2,
      o.role ∈ s0.roles ∧ o.parentId ∈ s0.roles ∧ o.parentId ≠ o.role :=
    fun o ho => hops1 o (filter_mem_trans hfil ho)
  have hinc0 : Inc s0 = ∅ := inc_empty_iff.mpr hcons
  obtain ⟨hroles1, hpar1, hinc1, hout1⟩ :=
    seqRun_spec ops2 fuel s0 s1 hseq hops2 hns hcl hinc0
  -- unravel the batch run
  have hbody : (fun ctx s =>
      ((batchApply fuel ops1 ctx s).1, (batchApply fuel ops1 ctx s).2, true))
        (⟨true, ∅⟩ : Ctx) s0
      = (⟨true, ops1.foldl (fun P o => insert o.role P) ∅⟩,
          ops1.foldl applyEdge s0, true) := by
    show ((batchApply fuel ops1 ⟨true, ∅⟩ s0).1,
        (batchApply fuel ops1 ⟨true, ∅⟩ s0).2, true) = _
    rw [batchApply_batching ops1 fuel ⟨true, ∅⟩ s0 rfl]
  rw [batch_outer_eq fuel false _ ∅ s0 _ _ _ hbody] at hbatch
  simp only [Ctx.pending] at hbatch
  cases hflush : flushPending fuel (ops1.foldl applyEdge s0)
      (ops1.foldl (fun P o => insert o.role P) ∅) with
  | none =>
    rw [hflush] at hbatch
    simp at hbatch
  | some s3 =>
    rw [hflush] at hbatch
    simp only [Option.some.injEq, Prod.mk.injEq] at hbatch
    have hflush2 : flushPending fuel (ops1.foldl applyEdge s0)
        (ops1.foldl (fun P o => insert o.role P) ∅) = some s2 := by
      rw [hflush, hbatch.2.1]
    -- properties of the batched graph state
    have hGroles : (ops1.foldl applyEdge s0).roles = s0.roles :=
      foldl_applyEdge_roles ops1 s0
    have hGanc : (ops1.foldl applyEdge s0).ancestors = s0.ancestors :=
      foldl_applyEdge_ancestors ops1 s0
    have hGns : NoSelfLoop (ops1.foldl applyEdge s0) :=
      foldl_applyEdge_noSelfLoop ops1 s0 hns (fun o ho => (hops1 o ho).2.2)
    have hGcl : Closed (ops1.foldl applyEdge s0) :=
      foldl_applyEdge_closed ops1 s0 hcl (fun o ho => (hops1 o ho).2.1)
    have hGinc : Inc (ops1.foldl applyEdge s0) ⊆ (ops1.map EdgeOp.role).toFinset := by
      intro x hx
      have := foldl_applyEdge_inc ops1 s0 hx
      rw [hinc0] at this
      simpa using this
    -- the flush visits every inconsistent role
    have hflushcover : Inc (ops1.foldl applyEdge s0)
        ⊆ (sortFinset ((ops1.foldl (fun P o => insert o.role P) ∅)
            ∩ (ops1.foldl applyEdge s0).roles)).toFinset := by
      intro x hx
      rw [List.mem_toFinset, sortFinset_mem, Finset.mem_inter]
      have hxroles : x ∈ (ops1.foldl applyEdge s0).roles := by
        rw [Inc, Finset.mem_filter] at hx
        exact hx.1
      refine ⟨?_, hxroles⟩
      rw [foldl_insert_role_mem]
      right
      have hmap := hGinc hx
      rw [List.mem_toFinset, List.mem_map] at hmap
      obtain ⟨o, ho, hrole⟩ := hmap
      exact ⟨o, ho, hrole⟩
    rw [flushPending] at hflush2
    have hinc2 : Inc s2 = ∅ := by
      rw [Finset.eq_empty_iff_forall_not_mem]
      intro x hx
      have hsub := (rebuild_inc fuel).2 _ _ _ hflush2 hGns hx
      rw [Finset.mem_sdiff] at hsub
      exact hsub.2 (hflushcover hsub.1)
    obtain ⟨heffB, hchgB⟩ := (rebuild_effects fuel).2 _ _ _ hflush2
    have hroles2 : s2.roles = s0.roles := heffB.1.trans hGroles
    have hpar2 : s2.parents = (ops1.foldl applyEdge s0).parents := heffB.2.1
    have hout2 : ∀ x, x ∉ s0.roles → s2.ancestors x = s0.ancestors x := by
      intro x hx
      have h1 : s2.ancestors x = (ops1.foldl applyEdge s0).ancestors x := by
        by_contra hne
        obtain ⟨c, hc, -, hor⟩ := hchgB x hne
        -- c is in the flush list, hence an existing role
        have hcroles : c ∈ s0.roles := by
          have hc2 := (sortFinset_mem _ c).mp hc
          rw [Finset.mem_inter] at hc2
          rw [← hGroles]
          exact hc2.2
        rcases hor with h2 | h3
        · exact hx (h2 ▸ hcroles)
        · rw [hGroles] at h3
          exact hx h3
      rw [h1, hGanc]
    -- the two final graphs coincide
    have hpar_eq : (ops1.foldl applyEdge s0).parents
        = (ops2.foldl applyEdge s0).parents :=
      foldl_parents_eq_of_filter ops1 ops2 s0 hfil
    -- uniqueness of the consistent closure
    have hmain : ∀ x ∈ s0.roles, s1.ancestors x = s2.ancestors x := by
      refine fix_unique s0.roles (ops1.foldl applyEdge s0).parents ?_ ?_
        s1.ancestors s2.ancestors ?_ ?_
      · intro x hx
        have := hGcl x (by rwa [hGroles])
        rwa [hGroles] at this
      · rw [← acyclic_iff_fun]
        exact hacyF
      · intro x hx
        have hx1 : x ∈ s1.roles := by rwa [hroles1]
        have := inc_empty_iff.mp hinc1 x hx1
        rw [target] at this
        rw [this, hpar1, hpar_eq]
      · intro x hx
        have hx2 : x ∈ s2.roles := by rwa [hroles2]
        have := inc_empty_iff.mp hinc2 x hx2
        rw [target] at this
        rw [this, hpar2]
    intro x
    by_cases hx : x ∈ s0.roles
    · exact hmain x hx
    · rw [hout1 x hx, hout2 x hx]

lemma w8_noSelfLoop : NoSelfLoop w8 := by
  intro x
  show x ∉ w8.parents x
  simp [w8]

lemma w8_fold_acyclic : Acyclic ([EdgeOp.add 2 1].foldl applyEdge w8) := by
  refine acyclic_of_rank (fun x => x) ?_
  intro a b hb
  simp only [stepOf, List.foldl, applyEdge, w8] at hb
  by_cases ha : a = 2
  · rw [if_pos ha] at hb
    rcases Finset.mem_insert.mp hb with rfl | hb2
    · subst ha
      decide
    · exact absurd hb2 (Finset.not_mem_empty b)
  · rw [if_neg ha] at hb
    exact absurd hb (Finset.not_mem_empty b)

/-- Witness for C5 on the concrete state w8 with the single mutation
adding parent 1 to role 2: the sequential run and the batched run reach
the same closure. -/
theorem C5_witness :
    (setAnc (applyEdge w8 (EdgeOp.add 2 1)) 2
        (target (applyEdge w8 (EdgeOp.add 2 1)) 2)).ancestors 2
      = (setAnc (applyEdge w8 (EdgeOp.add 2 1)) 2
        (target (applyEdge w8 (EdgeOp.add 2 1)) 2)).ancestors 2 :=
  C5_batch_equivalence 3 w8 [EdgeOp.add 2 1] [EdgeOp.add 2 1]
    (setAnc (applyEdge w8 (EdgeOp.add 2 1)) 2 (target (applyEdge w8 (EdgeOp.add 2 1)) 2))
    ⟨false, ∅⟩
    (setAnc (applyEdge w8 (EdgeOp.add 2 1)) 2 (target (applyEdge w8 (EdgeOp.add 2 1)) 2))
    true
    (by decide)
    (by
      show ∀ x ∈ w8.roles, w8.parents x ⊆ w8.roles
      decide)
    w8_noSelfLoop
    (by decide)
    (fun e => rfl)
    w8_fold_acyclic
    rfl
    rfl
    2
